import Mathlib

/-!
# Verification of the `HD` / `CPromise` deferred-value (promise) core

This development is a shallow embedding of the promise implementation found in
the repository: the class `HD` of `src/unnamed/part_000` and the class
`CPromise` of `src/unnamed/part_001`.  Both classes implement the same
single-assignment future: a heap object with a `status` field
(`"pending"` / `"fulfilled"` / `"reject"`), a `value` field, and a
`callbacks` list, together with a `then` method, a chaining algorithm
(`parse`) and the static combinators `resolve`, `reject`, `all`, `race`.

The JavaScript host is modelled explicitly:
* a `World` carries the heap of deferred objects (indexed by allocation
  order, modelling reference identity), the FIFO queue of `setTimeout`
  tasks, the shared arrays allocated by `all`, a user-visible `log`,
  the list of exceptions that escaped a scheduled task uncaught, and an
  instrumentation trace (`events`) that records every handler invocation;
* handler functions are embedded deeply (`HandlerFn` / `HExpr`) so that
  theorems can quantify over the handlers a caller may pass to `then`;
* a scheduled `setTimeout` callback is a `Task`; `step` pops the front of
  the queue and runs it; an exception thrown inside a task is recorded in
  `uncaught` (as in the host, it does not stop the scheduler).
-/

namespace HDP

/-- The three states of an `HD`/`CPromise` object: the string constants
`HD.PENDING = "pending"`, `HD.FULFILLED = "fulfilled"`, `HD.REJECT = "reject"`. -/
inductive Status where
  | pending
  | fulfilled
  | rejected
deriving DecidableEq, Repr

/-- JavaScript values as far as this library manipulates them: `null`,
`undefined`, numbers, strings, object references to deferreds (by heap
index, modelling JS reference identity), arrays, and `TypeError` objects
(`err msg`). -/
inductive Val where
  | null
  | undef
  | num (n : Int)
  | str (s : String)
  | ref (id : Nat)
  | vlist (vs : List Val)
  | err (msg : String)

/-- Deep embedding of the bodies of user handler functions passed to `then`.
`resolveAdd n` is the handler `v => Deferred.resolve(v + n)` (it calls the
static `resolve` of whichever class is in use); `retRef i` returns an
existing deferred object; `throwV v` raises; `pushLog` is
`v => log.push(v)`. -/
inductive HExpr where
  | cst (v : Val)
  | ident
  | throwV (v : Val)
  | pushLog
  | retRef (id : Nat)
  | resolveAdd (n : Int)

/-- A handler function value.  `user e` is a caller-supplied handler;
`defaultH src` is the substitute `() => this.value` installed by `then`
when an argument is not callable (`this` = the source deferred `src`);
`capRes p`/`capRej p` are the bound settlement capabilities
`resolve`/`reject` of deferred `p` passed directly as handlers
(as `CPromise.parse` does with `result.then(resolve, reject)`);
`capResW p`/`capRejW p` are the eta-wrapped forms
`(value) => { resolve(value); }` used by `HD.parse` and `HD.resolve`
(behaviourally identical, kept distinct to model each source text);
`allF arr n p` is the fulfilled handler `all` subscribes with:
`value => { resloves.push(value); if (resloves.length == promises.length) resolve(resloves); }`
over shared array `arr`, input count `n`, target deferred `p`. -/
inductive HandlerFn where
  | user (e : HExpr)
  | defaultH (src : Nat)
  | capRes (p : Nat)
  | capRej (p : Nat)
  | capResW (p : Nat)
  | capRejW (p : Nat)
  | allF (arr : Nat) (n : Nat) (p : Nat)

/-- A `{onFulfilled, onRejected}` pair pushed onto `this.callbacks` by
`then` while the source is pending.  `cbId` is instrumentation: a unique
identifier assigned at registration so the trace can speak about *which*
waiter was dispatched.  `prom` is the deferred that this registration's
`then` returned (captured by the closures for `this.parse(promise, ...)`). -/
structure CallbackPair where
  cbId : Nat
  onF : HandlerFn
  onR : HandlerFn
  prom : Nat

/-- One `HD`/`CPromise` heap object: `this.status`, `this.value`,
`this.callbacks`. -/
structure Dobj where
  status : Status
  value : Val
  callbacks : List CallbackPair

instance : Inhabited Dobj := ⟨⟨.pending, .null, []⟩⟩

/-- A callback scheduled with `setTimeout`.
`drainF i v` / `drainR i v` are the settlement tasks
`() => this.callbacks.map(cb => cb.onFulfilled(value))` (resp. `onRejected`)
scheduled by `resolve`/`reject` of deferred `i` with settled value `v`;
`hTask h src prom` is the task scheduled by `then` on an already-terminal
source: `() => { let result = h(this.value); this.parse(promise, result, resolve, reject); }`. -/
inductive Task where
  | drainF (id : Nat) (v : Val)
  | drainR (id : Nat) (v : Val)
  | hTask (h : HandlerFn) (src : Nat) (prom : Nat)

/-- Instrumentation events: `inv h arg` records that handler `h` was
invoked with argument `arg`; `winv cbId` records that the registered
waiter `cbId` was dispatched by a settlement drain. -/
inductive Ev where
  | inv (h : HandlerFn) (arg : Val)
  | winv (cbId : Nat)

/-- The global state: heap of deferred objects, FIFO `setTimeout` queue,
the shared result arrays allocated by `all`, the user-visible log, the
exceptions that escaped a task uncaught, the instrumentation trace, and
the next fresh waiter identifier. -/
structure World where
  heap : List Dobj
  tasks : List Task
  arrays : List (List Val)
  log : List Val
  uncaught : List Val
  events : List Ev
  nextCb : Nat

def World.empty : World := ⟨[], [], [], [], [], [], 0⟩

/-- Heap read (JS property access through an object reference). -/
def hget : List Dobj → Nat → Dobj
  | [], _ => default
  | d :: _, 0 => d
  | _ :: t, n + 1 => hget t n

/-- Heap write at an index (mutation of the referenced object).  Writing
past the end is the identity (such references do not arise in JS). -/
def hset : List Dobj → Nat → Dobj → List Dobj
  | [], _, _ => []
  | _ :: t, 0, d => d :: t
  | h :: t, n + 1, d => h :: hset t n d

def getD (w : World) (i : Nat) : Dobj := hget w.heap i

def setD (i : Nat) (f : Dobj → Dobj) (w : World) : World :=
  { w with heap := hset w.heap i (f (hget w.heap i)) }

def pushTask (t : Task) (w : World) : World := { w with tasks := w.tasks ++ [t] }

def pushEv (e : Ev) (w : World) : World := { w with events := w.events ++ [e] }

def pushLogV (v : Val) (w : World) : World := { w with log := w.log ++ [v] }

/-- The field initialisation performed by the constructor:
append a fresh `{status: PENDING, value: null, callbacks: []}` object. -/
def allocD (w : World) : World :=
  { w with heap := w.heap ++ [⟨.pending, .null, []⟩] }

/-- Draw a fresh waiter identifier (instrumentation only). -/
def bumpCb (w : World) : World := { w with nextCb := w.nextCb + 1 }

/-- `this.callbacks.push(pair)`. -/
def pushCb (src : Nat) (c : CallbackPair) (w : World) : World :=
  setD src (fun d => { d with callbacks := d.callbacks ++ [c] }) w

/-- `this.status = st; this.value = v`. -/
def settleD (p : Nat) (st : Status) (v : Val) (w : World) : World :=
  setD p (fun d => { d with status := st, value := v }) w

/-- Overwrite one of the shared `resloves` arrays. -/
def setArr (arr : Nat) (l : List Val) (w : World) : World :=
  { w with arrays := w.arrays.set arr l }

/-- Allocate a fresh empty shared array (entry to `all`). -/
def pushArr (w : World) : World := { w with arrays := w.arrays ++ [[]] }

/-- Replace the scheduler queue (used by `step` after popping the front). -/
def withTasks (ts : List Task) (w : World) : World := { w with tasks := ts }

/-- Record an exception that escaped a scheduled task. -/
def pushUncaught (e : Val) (w : World) : World :=
  { w with uncaught := w.uncaught ++ [e] }

/-- `resolve(value)` (the instance method, identical in `HD` and
`CPromise`): if `this.status == PENDING`, set `status = FULFILLED`,
store the value, and schedule
`setTimeout(() => this.callbacks.map(cb => cb.onFulfilled(value)))`.
Otherwise do nothing. -/
def resolveM (p : Nat) (v : Val) (w : World) : World :=
  if (getD w p).status = .pending then
    pushTask (.drainF p v) (settleD p .fulfilled v w)
  else w

/-- `reject(reason)` (the instance method, identical in both classes). -/
def rejectM (p : Nat) (v : Val) (w : World) : World :=
  if (getD w p).status = .pending then
    pushTask (.drainR p v) (settleD p .rejected v w)
  else w

/-- Allocation performed by `new HD(...)` / `new CPromise(...)`:
`this.status = PENDING; this.value = null; this.callbacks = []`.
Returns the fresh reference. -/
def newDeferred (w : World) : Nat × World :=
  (w.heap.length, allocD w)

/-- `then(onFulfilled, onRejected)` (identical logic in both classes; the
two source files merely test the two non-callable arguments in opposite
order, which is unobservable).  Non-callable arguments are replaced by
`() => this.value`.  A fresh deferred `promise` is allocated; depending on
`this.status` the call schedules a task for the appropriate handler, or
pushes a `{onFulfilled, onRejected}` pair onto `this.callbacks`.  Returns
the reference to `promise`. -/
def thenCall (onF onR : Option HandlerFn) (src : Nat) (w : World) : Nat × World :=
  let f := onF.getD (.defaultH src)
  let r := onR.getD (.defaultH src)
  let prom := w.heap.length
  match (getD (allocD w) src).status with
  | .fulfilled => (prom, pushTask (.hTask f src prom) (allocD w))
  | .rejected => (prom, pushTask (.hTask r src prom) (allocD w))
  | .pending =>
      (prom, pushCb src ⟨w.nextCb, f, r, prom⟩ (bumpCb (allocD w)))

/-- The loose-equality test `promise == result` used by `parse`: true when
`result` is the very same object, and also — by `ToPrimitive` coercion of
the promise object — when `result` is the string `"[object Object]"`. -/
def jsEqObj (p : Nat) (result : Val) : Bool :=
  match result with
  | .ref q => p == q
  | .str s => s == "[object Object]"
  | _ => false

/-- `HD.prototype.parse(promise, result, resolve, reject)` from
`src/unnamed/part_000`, lines 129–149.  The cycle check
`if (promise == result) throw new TypeError("Chaining cycle detected")`
sits *outside* the `try`, so its exception propagates to the caller
(returned here as `some thrown`).  If `result instanceof HD`, subscribe
with the eta-wrapped capabilities `(value) => { resolve(value); }` /
`(reason) => { reject(reason); }`; otherwise `resolve(result)`.  The
`try`/`catch` around that body never fires in this model because neither
`then` nor the bound `resolve` can throw. -/
def parseHD (prom : Nat) (result : Val) (w : World) : World × Option Val :=
  if jsEqObj prom result then (w, some (.err "Chaining cycle detected"))
  else
    match result with
    | .ref r => ((thenCall (some (.capResW prom)) (some (.capRejW prom)) r w).2, none)
    | _ => (resolveM prom result w, none)

/-- `CPromise.prototype.parse` from `src/unnamed/part_001`, lines 262–279:
identical to `parseHD` except that it subscribes with the bound
capabilities directly, `result.then(resolve, reject)`. -/
def parseCP (prom : Nat) (result : Val) (w : World) : World × Option Val :=
  if jsEqObj prom result then (w, some (.err "Chaining cycle detected"))
  else
    match result with
    | .ref r => ((thenCall (some (.capRes prom)) (some (.capRej prom)) r w).2, none)
    | _ => (resolveM prom result w, none)

/-- `static resolve(value)` of `HD`: a new deferred whose executor, when
`value instanceof HD`, subscribes `value.then((v) => { resolve(v); }, (e) => { reject(e); })`
(eta-wrapped capabilities), and otherwise calls `resolve(value)`. -/
def resolveSHD (v : Val) (w : World) : Nat × World :=
  let (p, w1) := newDeferred w
  match v with
  | .ref d => (p, (thenCall (some (.capResW p)) (some (.capRejW p)) d w1).2)
  | _ => (p, resolveM p v w1)

/-- `static resolve(value)` of `CPromise`: identical except the executor
subscribes `value.then(resolve, reject)` with the bound capabilities. -/
def resolveSCP (v : Val) (w : World) : Nat × World :=
  let (p, w1) := newDeferred w
  match v with
  | .ref d => (p, (thenCall (some (.capRes p)) (some (.capRej p)) d w1).2)
  | _ => (p, resolveM p v w1)

/-- `static reject(value)` (identical in both classes):
`new Deferred((resolve, reject) => reject(value))`. -/
def rejectS (v : Val) (w : World) : Nat × World :=
  let (p, w1) := newDeferred w
  (p, rejectM p v w1)

/-- `static all(promises)` (textually identical in both classes): allocate
the result deferred and the shared `resloves` array, then subscribe each
input with the accumulating fulfilled handler and the rejection arrow
`(reason) => { reject(reason); }` (modelled by the capability handler
`capRej p`, whose invocation behaviour is the same). -/
def allCall (ids : List Nat) (w : World) : Nat × World :=
  let (p, w1) := newDeferred w
  let arr := w1.arrays.length
  let w2 : World := pushArr w1
  let n := ids.length
  (p, ids.foldl (fun wacc q =>
        (thenCall (some (.allF arr n p)) (some (.capRej p)) q wacc).2) w2)

/-- `static race(promises)` (textually identical in both classes):
subscribe each input with the capabilities of the result (the source's
`(value) => { resolve(value); }` arrows, modelled by the capability
handlers directly). -/
def raceCall (ids : List Nat) (w : World) : Nat × World :=
  let (p, w1) := newDeferred w
  (p, ids.foldl (fun wacc q =>
        (thenCall (some (.capRes p)) (some (.capRej p)) q wacc).2) w1)

/-- The two points where `HD` and `CPromise` differ textually: which
`parse` runs inside the scheduled continuation machinery, and which
static `resolve` a user handler `v => Deferred.resolve(...)` invokes. -/
structure Sem where
  parse : Nat → Val → World → World × Option Val
  sres : Val → World → Nat × World

/-- `v + n` as the handlers in the repository's examples use it (numeric). -/
def jsAdd (v : Val) (n : Int) : Val :=
  match v with
  | .num m => .num (m + n)
  | _ => .num n

/-- Evaluation of a user handler body.  Returns the world (mutations
survive a throw) and either the returned value or the thrown value. -/
def evalHExpr (S : Sem) (e : HExpr) (arg : Val) (w : World) : World × Except Val Val :=
  match e with
  | .cst v => (w, .ok v)
  | .ident => (w, .ok arg)
  | .throwV v => (w, .error v)
  | .pushLog => (pushLogV arg w, .ok .undef)
  | .retRef i => (w, .ok (.ref i))
  | .resolveAdd n =>
      let (p, w1) := S.sres (jsAdd arg n) w
      (w1, .ok (.ref p))

/-- Invocation of any handler function.  Records the invocation in the
instrumentation trace, then runs the handler's body. -/
def invokeH (S : Sem) (h : HandlerFn) (arg : Val) (w : World) : World × Except Val Val :=
  let w0 := pushEv (.inv h arg) w
  match h with
  | .user e => evalHExpr S e arg w0
  | .defaultH src => (w0, .ok (getD w0 src).value)
  | .capRes p => (resolveM p arg w0, .ok .undef)
  | .capResW p => (resolveM p arg w0, .ok .undef)
  | .capRej p => (rejectM p arg w0, .ok .undef)
  | .capRejW p => (rejectM p arg w0, .ok .undef)
  | .allF arr n p =>
      -- `resloves.push(value); if (resloves.length == promises.length) resolve(resloves)`.
      -- `resolve(resloves)` stores the array; the snapshot is observationally
      -- faithful because each subscription pushes at most once, so no push can
      -- occur after the length has reached the input count.
      let cur := (w0.arrays.getD arr []) ++ [arg]
      let w1 : World := setArr arr cur w0
      if cur.length = n then (resolveM p (.vlist cur) w1, .ok .undef)
      else (w1, .ok .undef)

/-- Running one registered waiter side:
`(value) => { let result = handler(value); this.parse(promise, result, resolve, reject); }`.
Note there is no `try` around the handler call: a throwing handler's
exception propagates out (second component `some thrown`). -/
def runCb (S : Sem) (useF : Bool) (c : CallbackPair) (v : Val) (w : World) :
    World × Option Val :=
  let w1 := pushEv (.winv c.cbId) w
  let h := if useF then c.onF else c.onR
  match invokeH S h v w1 with
  | (w2, .ok result) => S.parse c.prom result w2
  | (w2, .error e) => (w2, some e)

/-- `this.callbacks.map(cb => cb.onFulfilled(value))` (resp. rejected):
invoke each registered pair in list order; an exception aborts the
iteration and propagates out of the task. -/
def drainList (S : Sem) (useF : Bool) (cbs : List CallbackPair) (v : Val) (w : World) :
    World × Option Val :=
  match cbs with
  | [] => (w, none)
  | c :: rest =>
      match runCb S useF c v w with
      | (w1, none) => drainList S useF rest v w1
      | (w1, some e) => (w1, some e)

/-- The body of the task scheduled by `then` on a terminal source:
`let result = handler(this.value); this.parse(promise, result, resolve, reject)`.
`this.value` is read when the task runs.  No `try` around the handler. -/
def runHTask (S : Sem) (h : HandlerFn) (src prom : Nat) (w : World) : World × Option Val :=
  match invokeH S h (getD w src).value w with
  | (w1, .ok result) => S.parse prom result w1
  | (w1, .error e) => (w1, some e)

def runTask (S : Sem) (t : Task) (w : World) : World × Option Val :=
  match t with
  | .drainF i v => drainList S true (getD w i).callbacks v w
  | .drainR i v => drainList S false (getD w i).callbacks v w
  | .hTask h src prom => runHTask S h src prom w

/-- One scheduler turn: pop the front of the FIFO queue and run it.  An
exception escaping the task is recorded in `uncaught` (the host reports
it and keeps going). -/
def step (S : Sem) (w : World) : World :=
  match w.tasks with
  | [] => w
  | t :: rest =>
      match runTask S t (withTasks rest w) with
      | (w1, none) => w1
      | (w1, some e) => pushUncaught e w1

def runSteps (S : Sem) : Nat → World → World
  | 0, w => w
  | n + 1, w => runSteps S n (step S w)

/-- The `HD` class of `src/unnamed/part_000`. -/
def semHD : Sem := ⟨parseHD, resolveSHD⟩

/-- The `CPromise` class of `src/unnamed/part_001`. -/
def semCP : Sem := ⟨parseCP, resolveSCP⟩

/-! ## Basic heap lemmas -/

theorem hset_length (l : List Dobj) (p : Nat) (d : Dobj) :
    (hset l p d).length = l.length := by
  induction l generalizing p with
  | nil => rfl
  | cons a t ih => cases p <;> simp [hset, ih]

theorem hget_hset_self (l : List Dobj) (p : Nat) (d : Dobj) (h : p < l.length) :
    hget (hset l p d) p = d := by
  induction l generalizing p with
  | nil => simp at h
  | cons a t ih =>
      cases p with
      | zero => rfl
      | succ n => exact ih n (by simpa using h)

theorem hget_hset_ne (l : List Dobj) (p q : Nat) (d : Dobj) (h : p ≠ q) :
    hget (hset l p d) q = hget l q := by
  induction l generalizing p q with
  | nil => rfl
  | cons a t ih =>
      cases p with
      | zero => cases q with
          | zero => exact absurd rfl h
          | succ m => rfl
      | succ n => cases q with
          | zero => rfl
          | succ m => exact ih n m (fun he => h (by rw [he]))

theorem hget_oob (l : List Dobj) (i : Nat) (h : l.length ≤ i) :
    hget l i = default := by
  induction l generalizing i with
  | nil => cases i <;> rfl
  | cons a t ih =>
      cases i with
      | zero => simp at h
      | succ n => exact ih n (by simpa using h)

theorem hset_oob (l : List Dobj) (p : Nat) (d : Dobj) (h : l.length ≤ p) :
    hset l p d = l := by
  induction l generalizing p with
  | nil => rfl
  | cons a t ih =>
      cases p with
      | zero => simp at h
      | succ n => simp [hset, ih n (by simpa using h)]

theorem hget_append_lt (l l' : List Dobj) (i : Nat) (h : i < l.length) :
    hget (l ++ l') i = hget l i := by
  induction l generalizing i with
  | nil => simp at h
  | cons a t ih =>
      cases i with
      | zero => rfl
      | succ n => exact ih n (by simpa using h)

theorem hget_append_len (l : List Dobj) (d : Dobj) :
    hget (l ++ [d]) l.length = d := by
  induction l with
  | nil => rfl
  | cons a t ih => simpa using ih

theorem hget_append_oob (l l' : List Dobj) (i : Nat) (h : l.length ≤ i) :
    hget (l ++ l') i = hget l' (i - l.length) := by
  induction l generalizing i with
  | nil => simp
  | cons a t ih =>
      cases i with
      | zero => simp at h
      | succ n => simpa using ih n (by simpa using h)

/-! ### Projection lemmas for the world-update helpers -/

@[simp] theorem pushTask_heap (t : Task) (w : World) : (pushTask t w).heap = w.heap := rfl
@[simp] theorem pushTask_tasks (t : Task) (w : World) :
    (pushTask t w).tasks = w.tasks ++ [t] := rfl
@[simp] theorem pushTask_events (t : Task) (w : World) : (pushTask t w).events = w.events := rfl
@[simp] theorem pushTask_log (t : Task) (w : World) : (pushTask t w).log = w.log := rfl
@[simp] theorem pushTask_uncaught (t : Task) (w : World) :
    (pushTask t w).uncaught = w.uncaught := rfl
@[simp] theorem pushTask_arrays (t : Task) (w : World) : (pushTask t w).arrays = w.arrays := rfl
@[simp] theorem pushTask_nextCb (t : Task) (w : World) : (pushTask t w).nextCb = w.nextCb := rfl

@[simp] theorem pushEv_heap (e : Ev) (w : World) : (pushEv e w).heap = w.heap := rfl
@[simp] theorem pushEv_tasks (e : Ev) (w : World) : (pushEv e w).tasks = w.tasks := rfl
@[simp] theorem pushEv_events (e : Ev) (w : World) :
    (pushEv e w).events = w.events ++ [e] := rfl
@[simp] theorem pushEv_log (e : Ev) (w : World) : (pushEv e w).log = w.log := rfl
@[simp] theorem pushEv_uncaught (e : Ev) (w : World) : (pushEv e w).uncaught = w.uncaught := rfl
@[simp] theorem pushEv_arrays (e : Ev) (w : World) : (pushEv e w).arrays = w.arrays := rfl
@[simp] theorem pushEv_nextCb (e : Ev) (w : World) : (pushEv e w).nextCb = w.nextCb := rfl

@[simp] theorem pushLogV_heap (v : Val) (w : World) : (pushLogV v w).heap = w.heap := rfl
@[simp] theorem pushLogV_tasks (v : Val) (w : World) : (pushLogV v w).tasks = w.tasks := rfl
@[simp] theorem pushLogV_events (v : Val) (w : World) : (pushLogV v w).events = w.events := rfl
@[simp] theorem pushLogV_log (v : Val) (w : World) :
    (pushLogV v w).log = w.log ++ [v] := rfl
@[simp] theorem pushLogV_uncaught (v : Val) (w : World) :
    (pushLogV v w).uncaught = w.uncaught := rfl
@[simp] theorem pushLogV_arrays (v : Val) (w : World) : (pushLogV v w).arrays = w.arrays := rfl
@[simp] theorem pushLogV_nextCb (v : Val) (w : World) : (pushLogV v w).nextCb = w.nextCb := rfl

@[simp] theorem allocD_tasks (w : World) : (allocD w).tasks = w.tasks := rfl
@[simp] theorem allocD_events (w : World) : (allocD w).events = w.events := rfl
@[simp] theorem allocD_log (w : World) : (allocD w).log = w.log := rfl
@[simp] theorem allocD_uncaught (w : World) : (allocD w).uncaught = w.uncaught := rfl
@[simp] theorem allocD_arrays (w : World) : (allocD w).arrays = w.arrays := rfl
@[simp] theorem allocD_nextCb (w : World) : (allocD w).nextCb = w.nextCb := rfl
theorem allocD_heap (w : World) :
    (allocD w).heap = w.heap ++ [⟨.pending, .null, []⟩] := rfl
@[simp] theorem allocD_heap_length (w : World) :
    (allocD w).heap.length = w.heap.length + 1 := by simp [allocD_heap]

@[simp] theorem bumpCb_heap (w : World) : (bumpCb w).heap = w.heap := rfl
@[simp] theorem bumpCb_tasks (w : World) : (bumpCb w).tasks = w.tasks := rfl
@[simp] theorem bumpCb_events (w : World) : (bumpCb w).events = w.events := rfl
@[simp] theorem bumpCb_log (w : World) : (bumpCb w).log = w.log := rfl
@[simp] theorem bumpCb_uncaught (w : World) : (bumpCb w).uncaught = w.uncaught := rfl
@[simp] theorem bumpCb_arrays (w : World) : (bumpCb w).arrays = w.arrays := rfl
@[simp] theorem bumpCb_nextCb (w : World) : (bumpCb w).nextCb = w.nextCb + 1 := rfl

@[simp] theorem setD_tasks (i : Nat) (f : Dobj → Dobj) (w : World) :
    (setD i f w).tasks = w.tasks := rfl
@[simp] theorem setD_events (i : Nat) (f : Dobj → Dobj) (w : World) :
    (setD i f w).events = w.events := rfl
@[simp] theorem setD_log (i : Nat) (f : Dobj → Dobj) (w : World) :
    (setD i f w).log = w.log := rfl
@[simp] theorem setD_uncaught (i : Nat) (f : Dobj → Dobj) (w : World) :
    (setD i f w).uncaught = w.uncaught := rfl
@[simp] theorem setD_arrays (i : Nat) (f : Dobj → Dobj) (w : World) :
    (setD i f w).arrays = w.arrays := rfl
@[simp] theorem setD_nextCb (i : Nat) (f : Dobj → Dobj) (w : World) :
    (setD i f w).nextCb = w.nextCb := rfl
@[simp] theorem setD_heap_length (i : Nat) (f : Dobj → Dobj) (w : World) :
    (setD i f w).heap.length = w.heap.length := by
  simp [setD, hset_length]

@[simp] theorem settleD_tasks (p : Nat) (st : Status) (v : Val) (w : World) :
    (settleD p st v w).tasks = w.tasks := rfl
@[simp] theorem settleD_events (p : Nat) (st : Status) (v : Val) (w : World) :
    (settleD p st v w).events = w.events := rfl
@[simp] theorem settleD_log (p : Nat) (st : Status) (v : Val) (w : World) :
    (settleD p st v w).log = w.log := rfl
@[simp] theorem settleD_uncaught (p : Nat) (st : Status) (v : Val) (w : World) :
    (settleD p st v w).uncaught = w.uncaught := rfl
@[simp] theorem settleD_arrays (p : Nat) (st : Status) (v : Val) (w : World) :
    (settleD p st v w).arrays = w.arrays := rfl
@[simp] theorem settleD_nextCb (p : Nat) (st : Status) (v : Val) (w : World) :
    (settleD p st v w).nextCb = w.nextCb := rfl
@[simp] theorem settleD_heap_length (p : Nat) (st : Status) (v : Val) (w : World) :
    (settleD p st v w).heap.length = w.heap.length := by
  simp [settleD]

@[simp] theorem pushCb_tasks (src : Nat) (c : CallbackPair) (w : World) :
    (pushCb src c w).tasks = w.tasks := rfl
@[simp] theorem pushCb_events (src : Nat) (c : CallbackPair) (w : World) :
    (pushCb src c w).events = w.events := rfl
@[simp] theorem pushCb_log (src : Nat) (c : CallbackPair) (w : World) :
    (pushCb src c w).log = w.log := rfl
@[simp] theorem pushCb_uncaught (src : Nat) (c : CallbackPair) (w : World) :
    (pushCb src c w).uncaught = w.uncaught := rfl
@[simp] theorem pushCb_arrays (src : Nat) (c : CallbackPair) (w : World) :
    (pushCb src c w).arrays = w.arrays := rfl
@[simp] theorem pushCb_nextCb (src : Nat) (c : CallbackPair) (w : World) :
    (pushCb src c w).nextCb = w.nextCb := rfl
@[simp] theorem pushCb_heap_length (src : Nat) (c : CallbackPair) (w : World) :
    (pushCb src c w).heap.length = w.heap.length := by
  simp [pushCb]

@[simp] theorem setArr_heap (a : Nat) (l : List Val) (w : World) :
    (setArr a l w).heap = w.heap := rfl
@[simp] theorem setArr_tasks (a : Nat) (l : List Val) (w : World) :
    (setArr a l w).tasks = w.tasks := rfl
@[simp] theorem setArr_events (a : Nat) (l : List Val) (w : World) :
    (setArr a l w).events = w.events := rfl
@[simp] theorem setArr_log (a : Nat) (l : List Val) (w : World) :
    (setArr a l w).log = w.log := rfl
@[simp] theorem setArr_uncaught (a : Nat) (l : List Val) (w : World) :
    (setArr a l w).uncaught = w.uncaught := rfl
@[simp] theorem setArr_nextCb (a : Nat) (l : List Val) (w : World) :
    (setArr a l w).nextCb = w.nextCb := rfl

@[simp] theorem pushArr_heap (w : World) : (pushArr w).heap = w.heap := rfl
@[simp] theorem pushArr_tasks (w : World) : (pushArr w).tasks = w.tasks := rfl
@[simp] theorem pushArr_events (w : World) : (pushArr w).events = w.events := rfl
@[simp] theorem pushArr_log (w : World) : (pushArr w).log = w.log := rfl
@[simp] theorem pushArr_uncaught (w : World) : (pushArr w).uncaught = w.uncaught := rfl
@[simp] theorem pushArr_nextCb (w : World) : (pushArr w).nextCb = w.nextCb := rfl

@[simp] theorem withTasks_heap (ts : List Task) (w : World) :
    (withTasks ts w).heap = w.heap := rfl
@[simp] theorem withTasks_tasks (ts : List Task) (w : World) :
    (withTasks ts w).tasks = ts := rfl
@[simp] theorem withTasks_events (ts : List Task) (w : World) :
    (withTasks ts w).events = w.events := rfl
@[simp] theorem withTasks_log (ts : List Task) (w : World) :
    (withTasks ts w).log = w.log := rfl
@[simp] theorem withTasks_uncaught (ts : List Task) (w : World) :
    (withTasks ts w).uncaught = w.uncaught := rfl
@[simp] theorem withTasks_arrays (ts : List Task) (w : World) :
    (withTasks ts w).arrays = w.arrays := rfl
@[simp] theorem withTasks_nextCb (ts : List Task) (w : World) :
    (withTasks ts w).nextCb = w.nextCb := rfl

@[simp] theorem pushUncaught_heap (e : Val) (w : World) :
    (pushUncaught e w).heap = w.heap := rfl
@[simp] theorem pushUncaught_tasks (e : Val) (w : World) :
    (pushUncaught e w).tasks = w.tasks := rfl
@[simp] theorem pushUncaught_events (e : Val) (w : World) :
    (pushUncaught e w).events = w.events := rfl
@[simp] theorem pushUncaught_log (e : Val) (w : World) :
    (pushUncaught e w).log = w.log := rfl
@[simp] theorem pushUncaught_uncaught (e : Val) (w : World) :
    (pushUncaught e w).uncaught = w.uncaught ++ [e] := rfl
@[simp] theorem pushUncaught_arrays (e : Val) (w : World) :
    (pushUncaught e w).arrays = w.arrays := rfl
@[simp] theorem pushUncaught_nextCb (e : Val) (w : World) :
    (pushUncaught e w).nextCb = w.nextCb := rfl

/-! ## Shared settlement lemmas -/

/-- Settlement calls on a non-pending (terminal) deferred are complete
no-ops: the world is returned unchanged. -/
theorem settle_terminal_eq (p : Nat) (v : Val) (w : World)
    (h : (getD w p).status ≠ .pending) :
    resolveM p v w = w ∧ rejectM p v w = w := by
  constructor <;> simp [resolveM, rejectM, h]

theorem getD_setD_self (p : Nat) (f : Dobj → Dobj) (w : World) (h : p < w.heap.length) :
    getD (setD p f w) p = f (getD w p) := by
  simp [getD, setD, hget_hset_self _ _ _ h]

theorem getD_setD_ne (p q : Nat) (f : Dobj → Dobj) (w : World) (h : p ≠ q) :
    getD (setD p f w) q = getD w q := by
  simp [getD, setD, hget_hset_ne _ _ _ _ h]

theorem getD_pushTask (t : Task) (w : World) (i : Nat) :
    getD (pushTask t w) i = getD w i := rfl

/-- Appending a fresh pending object to the heap does not change any
object's status (out-of-range reads already default to pending). -/
theorem status_hget_append_pending (l : List Dobj) (i : Nat) :
    (hget (l ++ [⟨.pending, .null, []⟩]) i).status = (hget l i).status := by
  induction l generalizing i with
  | nil => cases i <;> rfl
  | cons a t ih => cases i with
      | zero => rfl
      | succ n => exact ih n

/-! ## Concrete scenario worlds used as failing inputs / counterexamples -/

/-- `HD.resolve(1).then(v => { throw "boom" })`, then two scheduler turns. -/
def exC1 : World :=
  let (x, w1) := resolveSHD (.num 1) World.empty
  let (_, w2) := thenCall (some (.user (.throwV (.str "boom")))) none x w1
  runSteps semHD 2 w2

/-- `let p = HD.resolve(1).then(() => p)` (the handler returns the very
deferred `then` returned, heap reference 1), then two scheduler turns. -/
def exC2 : World :=
  let (x, w1) := resolveSHD (.num 1) World.empty
  let (_, w2) := thenCall (some (.user (.retRef 1))) none x w1
  runSteps semHD 2 w2

/-- `HD.reject("x").then().then(null, r => log.push(r))`, run to quiescence. -/
def exC3 : World :=
  let (x, w1) := rejectS (.str "x") World.empty
  let (p1, w2) := thenCall none none x w1
  let (_, w3) := thenCall none (some (.user .pushLog)) p1 w2
  runSteps semHD 5 w3

/-- `HD.all([p1, HD.resolve(2)])` where `p1` (heap 0) is pending at the
`all` call and is fulfilled with `1` afterwards; run to quiescence.  The
`all` result is heap reference 2. -/
def exC4 : World :=
  let (q1, w1) := newDeferred World.empty
  let (_, w2) := resolveSHD (.num 2) w1
  let (_, w3) := allCall [q1, 1] w2
  runSteps semHD 8 (resolveM q1 (.num 1) w3)

/-- `HD.all([HD.resolve(1), HD.reject("e")])`, run to quiescence; the
`all` result is heap reference 2. -/
def exC4b : World :=
  let (_, w1) := resolveSHD (.num 1) World.empty
  let (_, w2) := rejectS (.str "e") w1
  let (_, w3) := allCall [0, 1] w2
  runSteps semHD 8 w3

/-- `HD.all([])`: the world immediately after the call (result heap 0). -/
def exC5 : World := (allCall [] World.empty).2

/-- A fresh deferred settled `resolve("a")`, `reject("b")`, `resolve("c")`
in that order. -/
def exC6 : World :=
  let (p, w1) := newDeferred World.empty
  resolveM p (.str "c") (rejectM p (.str "b") (resolveM p (.str "a") w1))

/-- `HD.resolve(1).then(v => HD.resolve(v+1)).then(v => log.push(v))`,
run to quiescence. -/
def exC7 : World :=
  let (a, w1) := resolveSHD (.num 1) World.empty
  let (p1, w2) := thenCall (some (.user (.resolveAdd 1))) none a w1
  let (_, w3) := thenCall (some (.user .pushLog)) none p1 w2
  runSteps semHD 8 w3

/-- A pending deferred (heap 0) with one `then` registration, settled
fulfilled and run past its settlement task. -/
def exC9 : World :=
  let (p, w1) := newDeferred World.empty
  let (_, w2) := thenCall (some (.user .pushLog)) none p w1
  runSteps semHD 3 (resolveM p (.str "v") w2)

/-! ## C1 -/

/-- **C1** (code_bug evidence).  The claim says an exception raised inside
a handler passed to `then` is captured and routed to the rejection of the
deferred `then` returned, never escaping to the scheduler.  The code has
no `try` around the handler call (`let result = onFulfilled(this.value)`
in `then`, `src/unnamed/part_000` lines 230–251): on the failing input
`HD.resolve(1).then(v => { throw "boom" })` the exception escapes the
scheduled task uncaught and the returned deferred (heap 1) stays pending
forever — it is never rejected and the task queue is empty. -/
theorem then_handler_exception_escapes_scheduler :
    exC1.uncaught = [.str "boom"] ∧
    (getD exC1 1).status = .pending ∧
    exC1.tasks = [] := by
  refine ⟨rfl, rfl, rfl⟩

/-! ## C2 -/

/-- **C2** (counterexample).  The claim says that when a handler returns
the deferred `then` returned, that deferred becomes rejected with the
chaining-cycle `TypeError`, the error is not thrown to the scheduler, and
the chain does not hang.  On `let p = HD.resolve(1).then(() => p)` the
code instead throws the `TypeError` out of the scheduled task (it is
recorded as an uncaught scheduler error), and `p` (heap 1) remains
pending forever with an empty task queue: it is **not** rejected. -/
theorem chaining_cycle_not_rejected_cex :
    exC2.uncaught = [.err "Chaining cycle detected"] ∧
    (getD exC2 1).status = .pending ∧
    exC2.tasks = [] := by
  refine ⟨rfl, rfl, rfl⟩

/-- **C2** (amended).  What the code actually does: the cycle check in
`parse` sits *before* the `try` block, so whenever the handler's result
is loosely equal to the deferred `then` returned, `parse` raises
`TypeError("Chaining cycle detected")` without settling anything; the
exception escapes the scheduled task to the scheduler, and the returned
deferred stays pending (the chain hangs).  Nothing is thrown
synchronously to the caller of `then`. -/
theorem chaining_cycle_throw_and_hang
    (prom : Nat) (result : Val) (w : World) (h : jsEqObj prom result = true) :
    parseHD prom result w = (w, some (.err "Chaining cycle detected")) := by
  simp [parseHD, h]

theorem chaining_cycle_throw_and_hang_witness :
    jsEqObj 1 (.ref 1) = true ∧
    parseHD 1 (.ref 1) World.empty = (World.empty, some (.err "Chaining cycle detected")) :=
  ⟨rfl, chaining_cycle_throw_and_hang 1 (.ref 1) World.empty rfl⟩

/-! ## C3 -/

/-- **C3** (code_bug evidence).  The claim (and the comment in
`CPromise.then`, `src/unnamed/part_001` lines 298–300) says
`reject("x").then().then(null, r => log.push(r))` runs the rejection
handler with `"x"`: an omitted handler propagates the reason with
unchanged disposition.  The substituted default `() => this.value`
instead *returns* the reason, which `parse` feeds to `resolve`, so the
first chained deferred (heap 1) is **fulfilled** with `"x"`, the second
(heap 2) is fulfilled as well, and the rejection handler never runs:
the log stays empty. -/
theorem default_passthrough_converts_rejection :
    exC3.log = [] ∧
    (getD exC3 1).status = .fulfilled ∧ (getD exC3 1).value = .str "x" ∧
    (getD exC3 2).status = .fulfilled ∧ (getD exC3 2).value = .str "x" ∧
    exC3.tasks = [] := by
  refine ⟨rfl, rfl, rfl, rfl, rfl, rfl⟩

/-! ## C4 -/

/-- **C4** (counterexample).  The claim says `all` fulfills with a
sequence whose position `i` holds the fulfillment value of input `i`,
regardless of settlement order.  With inputs `[p1, HD.resolve(2)]` where
`p1` is fulfilled with `1` only after the `all` call, the already-settled
second input's value is pushed first: the `all` deferred (heap 2)
fulfills with `[2, 1]`, not `[1, 2]`. -/
theorem all_order_cex :
    (getD exC4 2).status = .fulfilled ∧
    (getD exC4 2).value = .vlist [.num 2, .num 1] ∧
    (getD exC4 2).value ≠ .vlist [.num 1, .num 2] := by
  refine ⟨rfl, rfl, ?_⟩
  intro h
  rw [show (getD exC4 2).value = .vlist [.num 2, .num 1] from rfl] at h
  injection h with hl
  injection hl with h1 h2
  injection h1 with hn
  exact absurd hn (by decide)

/-! ## C5 -/

/-- **C5** (code_bug evidence).  The claim (and the comment on
`CPromise.all`, "including when an empty iterable is passed") says
`all([])` fulfills immediately with an empty sequence.  The loop body
never runs for an empty input, `resolve` is never called, and no task is
ever scheduled: the result (heap 0) is pending and stays pending after
any number of scheduler turns. -/
theorem all_empty_stays_pending :
    (getD exC5 0).status = .pending ∧
    exC5.tasks = [] ∧
    ∀ n, runSteps semHD n exC5 = exC5 := by
  refine ⟨rfl, rfl, ?_⟩
  intro n
  induction n with
  | zero => rfl
  | succ m ih =>
      have hstep : step semHD exC5 = exC5 := rfl
      simp [runSteps, hstep, ih]

/-! ## C6 -/

/-- **C6** (confirmed).  Only the first settlement call changes `status`
and `value`: a settlement call on a pending (allocated) deferred makes it
fulfilled/rejected with the given value, any later settlement call is a
complete no-op (`resolveM p v w = w`), so a terminal state is never left;
and on the concrete test `resolve("a"); reject("b"); resolve("c")` the
final state is fulfilled with value `"a"`. -/
theorem settlement_first_wins :
    (∀ p v w, (getD w p).status ≠ .pending → resolveM p v w = w ∧ rejectM p v w = w) ∧
    (∀ p v w, p < w.heap.length → (getD w p).status = .pending →
       (getD (resolveM p v w) p).status = .fulfilled ∧
       (getD (resolveM p v w) p).value = v ∧
       (getD (rejectM p v w) p).status = .rejected ∧
       (getD (rejectM p v w) p).value = v) ∧
    ((getD exC6 0).status = .fulfilled ∧ (getD exC6 0).value = .str "a") := by
  refine ⟨fun p v w h => settle_terminal_eq p v w h, fun p v w hp hst => ?_, rfl, rfl⟩
  have h1 := getD_setD_self p (fun d => { d with status := Status.fulfilled, value := v }) w hp
  have h2 := getD_setD_self p (fun d => { d with status := Status.rejected, value := v }) w hp
  refine ⟨?_, ?_, ?_, ?_⟩ <;>
    simp [resolveM, rejectM, hst, getD_pushTask, settleD, h1, h2]

theorem settlement_first_wins_witness :
    resolveM 0 (.str "z") exC6 = exC6 ∧
    (getD (resolveM 0 (.num 5) (newDeferred World.empty).2) 0).status = .fulfilled :=
  ⟨(settlement_first_wins.1 0 (.str "z") exC6 (by decide)).1,
   (settlement_first_wins.2.1 0 (.num 5) (newDeferred World.empty).2
      (by decide) (by decide)).1⟩

/-! ## C7 -/

/-- Shape of `parse` on a deferred result that is already fulfilled:
the cycle check fails, and `result.then(wrapped resolve, wrapped reject)`
allocates the intermediate deferred and schedules a task for the wrapped
`resolve` capability. -/
theorem parseHD_ref_fulfilled (p r : Nat) (w : World)
    (hpr : p ≠ r) (hr : r < w.heap.length)
    (hst : (getD w r).status = .fulfilled) :
    parseHD p (.ref r) w =
      (pushTask (.hTask (.capResW p) r w.heap.length) (allocD w), none) := by
  simp only [getD] at hst
  simp [parseHD, jsEqObj, hpr, thenCall, getD, allocD, hget_append_lt _ _ _ hr, hst]

theorem parseHD_ref_rejected (p r : Nat) (w : World)
    (hpr : p ≠ r) (hr : r < w.heap.length)
    (hst : (getD w r).status = .rejected) :
    parseHD p (.ref r) w =
      (pushTask (.hTask (.capRejW p) r w.heap.length) (allocD w), none) := by
  simp only [getD] at hst
  simp [parseHD, jsEqObj, hpr, thenCall, getD, allocD, hget_append_lt _ _ _ hr, hst]

/-- A settlement of one deferred leaves every other deferred untouched. -/
theorem getD_resolveM_ne (q : Nat) (u : Val) (w : World) (i : Nat) (h : q ≠ i) :
    getD (resolveM q u w) i = getD w i := by
  unfold resolveM
  split
  · simp [getD_pushTask, settleD, getD_setD_ne q i _ w h]
  · rfl

theorem getD_rejectM_ne (q : Nat) (u : Val) (w : World) (i : Nat) (h : q ≠ i) :
    getD (rejectM q u w) i = getD w i := by
  unfold rejectM
  split
  · simp [getD_pushTask, settleD, getD_setD_ne q i _ w h]
  · rfl

/-- A settlement call on a pending allocated deferred records the value
and the matching terminal status. -/
theorem resolveM_pending (p : Nat) (v : Val) (w : World)
    (hp : p < w.heap.length) (hst : (getD w p).status = .pending) :
    (getD (resolveM p v w) p).status = .fulfilled ∧
    (getD (resolveM p v w) p).value = v := by
  have h1 := getD_setD_self p (fun d => { d with status := Status.fulfilled, value := v }) w hp
  constructor <;> simp [resolveM, hst, getD_pushTask, settleD, h1]

theorem rejectM_pending (p : Nat) (v : Val) (w : World)
    (hp : p < w.heap.length) (hst : (getD w p).status = .pending) :
    (getD (rejectM p v w) p).status = .rejected ∧
    (getD (rejectM p v w) p).value = v := by
  have h1 := getD_setD_self p (fun d => { d with status := Status.rejected, value := v }) w hp
  constructor <;> simp [rejectM, hst, getD_pushTask, settleD, h1]

/-! ### C4: general settlement-order behaviour of `all`'s subscriptions -/

/-- `List.getD` after `List.set` at the same in-range index reads the new
element. -/
theorem listGetD_set_self {α : Type} (d : α) :
    ∀ (l : List α) (i : Nat) (a : α), i < l.length → (l.set i a).getD i d = a := by
  intro l
  induction l with
  | nil => intro i a h; exact absurd h (Nat.not_lt_zero i)
  | cons x t ih =>
      intro i a h
      cases i with
      | zero => rfl
      | succ n => exact ih n a (Nat.lt_of_succ_lt_succ h)

/-- A settlement call never touches the shared `resloves` arrays. -/
theorem resolveM_arrays (q : Nat) (u : Val) (w : World) :
    (resolveM q u w).arrays = w.arrays := by
  unfold resolveM
  split <;> simp [settleD]

/-- One arrival at `all`'s accumulating subscription
(`value => { resloves.push(value); if (resloves.length == promises.length) resolve(resloves); }`):
the shared array gains exactly the arriving value at its end, so values
accumulate in arrival order. -/
theorem allF_step_arrays (arr n p : Nat) (v : Val) (w : World) :
    ((invokeH semHD (.allF arr n p) v w).1).arrays
      = w.arrays.set arr (w.arrays.getD arr [] ++ [v]) := by
  simp only [invokeH]
  split
  · dsimp only
    rw [resolveM_arrays]
    simp [setArr]
  · simp [setArr]

/-- An arrival that does not reach the input count mutates only the shared
array: the heap (every deferred's status, value and waiters) is unchanged. -/
theorem allF_step_heap_ne (arr n p : Nat) (v : Val) (w : World)
    (h : (w.arrays.getD arr []).length + 1 ≠ n) :
    ((invokeH semHD (.allF arr n p) v w).1).heap = w.heap := by
  simp only [invokeH]
  split
  · rename_i hlen
    exfalso
    apply h
    simpa using hlen
  · simp [setArr]

theorem allF_step_getD_ne (arr n p : Nat) (v : Val) (w : World) (i : Nat)
    (h : (w.arrays.getD arr []).length + 1 ≠ n) :
    getD ((invokeH semHD (.allF arr n p) v w).1) i = getD w i := by
  show hget ((invokeH semHD (.allF arr n p) v w).1).heap i = hget w.heap i
  rw [allF_step_heap_ne arr n p v w h]

/-- The arrival that reaches the input count fulfills the pending result
with the arrival-order array. -/
theorem allF_step_settles (arr n p : Nat) (v : Val) (w : World)
    (hlen : (w.arrays.getD arr []).length + 1 = n)
    (hp : p < w.heap.length) (hst : (getD w p).status = .pending) :
    (getD ((invokeH semHD (.allF arr n p) v w).1) p).status = .fulfilled ∧
    (getD ((invokeH semHD (.allF arr n p) v w).1) p).value
      = .vlist (w.arrays.getD arr [] ++ [v]) := by
  simp only [invokeH]
  split
  · have hp1 : p < (setArr arr
        ((pushEv (Ev.inv (HandlerFn.allF arr n p) v) w).arrays.getD arr [] ++ [v])
        (pushEv (Ev.inv (HandlerFn.allF arr n p) v) w)).heap.length := hp
    have hst1 : (getD (setArr arr
        ((pushEv (Ev.inv (HandlerFn.allF arr n p) v) w).arrays.getD arr [] ++ [v])
        (pushEv (Ev.inv (HandlerFn.allF arr n p) v) w)) p).status = .pending := hst
    exact ⟨(resolveM_pending p _ _ hp1 hst1).1, (resolveM_pending p _ _ hp1 hst1).2⟩
  · rename_i hcond
    exfalso
    apply hcond
    simpa using hlen

/-- A late arrival cannot disturb an already-settled result: even at the
count, `resolve` on a terminal deferred is a no-op. -/
theorem allF_step_terminal (arr n p : Nat) (v : Val) (w : World)
    (hst : (getD w p).status ≠ .pending) :
    getD ((invokeH semHD (.allF arr n p) v w).1) p = getD w p := by
  simp only [invokeH]
  split
  · have hst1 : (getD (setArr arr
        ((pushEv (Ev.inv (HandlerFn.allF arr n p) v) w).arrays.getD arr [] ++ [v])
        (pushEv (Ev.inv (HandlerFn.allF arr n p) v) w)) p).status ≠ Status.pending := hst
    exact (congrArg (fun ww => getD ww p) (settle_terminal_eq p _ _ hst1).1).trans rfl
  · rfl

/-- An arbitrary settlement schedule for the inputs of `all`: the inputs
deliver their fulfillment values to the shared accumulating subscription
in the order `vs` — the order in which the inputs happen to settle. -/
def allArrive (arr n p : Nat) (vs : List Val) (w : World) : World :=
  vs.foldl (fun wa v => (invokeH semHD (.allF arr n p) v wa).1) w

theorem allArrive_cons (arr n p : Nat) (v : Val) (vs : List Val) (w : World) :
    allArrive arr n p (v :: vs) w
      = allArrive arr n p vs ((invokeH semHD (.allF arr n p) v w).1) := rfl

/-- Loop invariant for an arrival sequence: with `acc` already accumulated
and `vs` still to arrive (totalling the input count), the pending result
ends fulfilled with the arrival-order concatenation `acc ++ vs`. -/
theorem allArrive_fulfills (arr n p : Nat) :
    ∀ (vs acc : List Val) (w : World), vs ≠ [] →
      arr < w.arrays.length → w.arrays.getD arr [] = acc →
      acc.length + vs.length = n →
      p < w.heap.length → (getD w p).status = .pending →
      (getD (allArrive arr n p vs w) p).status = .fulfilled ∧
      (getD (allArrive arr n p vs w) p).value = .vlist (acc ++ vs) := by
  intro vs
  induction vs with
  | nil => intro acc w hne _ _ _ _ _; exact absurd rfl hne
  | cons v rest ih =>
      intro acc w _ harr hacc hn hp hst
      cases rest with
      | nil =>
          have hlen : (w.arrays.getD arr []).length + 1 = n := by
            rw [hacc]; simpa using hn
          have h := allF_step_settles arr n p v w hlen hp hst
          rw [hacc] at h
          exact h
      | cons v2 rest2 =>
          have hlt : (w.arrays.getD arr []).length + 1 ≠ n := by
            rw [hacc]
            simp only [List.length_cons] at hn
            omega
          have hheap := allF_step_heap_ne arr n p v w hlt
          have harr1 : ((invokeH semHD (.allF arr n p) v w).1).arrays
              = w.arrays.set arr (acc ++ [v]) := by
            rw [allF_step_arrays, hacc]
          rw [allArrive_cons]
          have h := ih (acc ++ [v]) ((invokeH semHD (.allF arr n p) v w).1)
            (by simp)
            (by rw [harr1]; simpa using harr)
            (by rw [harr1]; exact listGetD_set_self [] w.arrays arr (acc ++ [v]) harr)
            (by simp only [List.length_append, List.length_cons, List.length_nil] at hn ⊢; omega)
            (by rw [hheap]; exact hp)
            (by rw [allF_step_getD_ne arr n p v w p hlt]; exact hst)
          rw [List.append_assoc] at h
          exact h

/-- The rejection arrow `all` subscribes with settles the pending result
rejected with the arriving reason: the first input to reject wins. -/
theorem capRej_first_rejects (p : Nat) (r : Val) (w : World)
    (hp : p < w.heap.length) (hst : (getD w p).status = .pending) :
    (getD ((invokeH semHD (.capRej p) r w).1) p).status = .rejected ∧
    (getD ((invokeH semHD (.capRej p) r w).1) p).value = r :=
  rejectM_pending p r (pushEv (.inv (.capRej p) r) w) hp hst

/-- Once the result is terminal, a further rejection arrow invocation
leaves the heap unchanged: later rejections (and rejections after the
fulfillment) are no-ops. -/
theorem capRej_terminal_noop (p : Nat) (r : Val) (w : World)
    (hst : (getD w p).status ≠ .pending) :
    ((invokeH semHD (.capRej p) r w).1).heap = w.heap := by
  have hg : getD (pushEv (.inv (.capRej p) r) w) p = getD w p := rfl
  simp only [invokeH]
  unfold rejectM
  rw [hg, if_neg hst]
  rfl

/-- **C4** (amended).  `all` collects fulfillment values in *settlement*
order, not input order: (1) each arrival at the accumulating subscription
appends exactly the arriving value to the end of the shared array; (2) an
arrival below the input count changes no deferred; (3) the arrival that
reaches the count fulfills the pending result with the arrival-order
array; (4) hence over *any* settlement schedule `vs` of the full input
count (starting from the empty shared array `all` allocates and a pending
result), the result fulfills with exactly the list of values in arrival
order — position `i` holds the `i`-th value to arrive, which coincides
with input order only when the inputs settle in input order; (8) a late
arrival cannot disturb a settled result.  The rejection half of the claim
stands: (5) the first input to reject settles the result rejected with its
reason, and (6) once the result is terminal, further rejections are
no-ops.  (7) Illustrated end-to-end through the scheduler on the two
failing-input runs: `all([p1, HD.resolve(2)])` with `p1` fulfilled later
yields `[2, 1]`, and `all([HD.resolve(1), HD.reject("e")])` rejects with
`"e"`. -/
theorem all_settlement_order :
    (∀ (arr n p : Nat) (v : Val) (w : World),
        ((invokeH semHD (.allF arr n p) v w).1).arrays
          = w.arrays.set arr (w.arrays.getD arr [] ++ [v])) ∧
    (∀ (arr n p : Nat) (v : Val) (w : World),
        (w.arrays.getD arr []).length + 1 ≠ n →
        ((invokeH semHD (.allF arr n p) v w).1).heap = w.heap) ∧
    (∀ (arr n p : Nat) (v : Val) (w : World),
        (w.arrays.getD arr []).length + 1 = n →
        p < w.heap.length → (getD w p).status = .pending →
        (getD ((invokeH semHD (.allF arr n p) v w).1) p).status = .fulfilled ∧
        (getD ((invokeH semHD (.allF arr n p) v w).1) p).value
          = .vlist (w.arrays.getD arr [] ++ [v])) ∧
    (∀ (vs : List Val) (arr p : Nat) (w : World),
        vs ≠ [] → arr < w.arrays.length → w.arrays.getD arr [] = [] →
        p < w.heap.length → (getD w p).status = .pending →
        (getD (allArrive arr vs.length p vs w) p).status = .fulfilled ∧
        (getD (allArrive arr vs.length p vs w) p).value = .vlist vs) ∧
    (∀ (p : Nat) (r : Val) (w : World),
        p < w.heap.length → (getD w p).status = .pending →
        (getD ((invokeH semHD (.capRej p) r w).1) p).status = .rejected ∧
        (getD ((invokeH semHD (.capRej p) r w).1) p).value = r) ∧
    (∀ (p : Nat) (r : Val) (w : World),
        (getD w p).status ≠ .pending →
        ((invokeH semHD (.capRej p) r w).1).heap = w.heap) ∧
    (∀ (arr n p : Nat) (v : Val) (w : World),
        (getD w p).status ≠ .pending →
        getD ((invokeH semHD (.allF arr n p) v w).1) p = getD w p) ∧
    ((getD exC4 2).status = .fulfilled ∧
      (getD exC4 2).value = .vlist [.num 2, .num 1] ∧
      (getD exC4b 2).status = .rejected ∧ (getD exC4b 2).value = .str "e") := by
  refine ⟨allF_step_arrays, allF_step_heap_ne, allF_step_settles, ?_,
    capRej_first_rejects, capRej_terminal_noop, allF_step_terminal,
    rfl, rfl, rfl, rfl⟩
  intro vs arr p w hne harr hemp hp hst
  have h := allArrive_fulfills arr vs.length p vs [] w hne harr hemp (by simp) hp hst
  simpa using h

/-- A pending result deferred (heap 0) with one allocated empty shared
array, exactly as `all` sets them up before subscribing the inputs. -/
def wAll : World := ⟨[⟨.pending, .null, []⟩], [], [[]], [], [], [], 0⟩

theorem all_settlement_order_witness :
    (([Val.num 2, Val.num 1] : List Val) ≠ []) ∧ 0 < wAll.arrays.length ∧
    wAll.arrays.getD 0 [] = [] ∧ 0 < wAll.heap.length ∧
    (getD wAll 0).status = .pending ∧
    (getD (allArrive 0 2 0 [.num 2, .num 1] wAll) 0).status = .fulfilled ∧
    (getD (allArrive 0 2 0 [.num 2, .num 1] wAll) 0).value
      = .vlist [.num 2, .num 1] ∧
    (getD ((invokeH semHD (.capRej 0) (.str "e") wAll).1) 0).status = .rejected ∧
    (getD ((invokeH semHD (.capRej 0) (.str "e") wAll).1) 0).value = .str "e" := by
  refine ⟨by simp, by decide, rfl, by decide, rfl, ?_, ?_, ?_, ?_⟩
  · exact (all_settlement_order.2.2.2.1 [.num 2, .num 1] 0 0 wAll
      (by simp) (by decide) rfl (by decide) rfl).1
  · exact (all_settlement_order.2.2.2.1 [.num 2, .num 1] 0 0 wAll
      (by simp) (by decide) rfl (by decide) rfl).2
  · exact (all_settlement_order.2.2.2.2.1 0 (.str "e") wAll (by decide) rfl).1
  · exact (all_settlement_order.2.2.2.2.1 0 (.str "e") wAll (by decide) rfl).2

/-- `step` on a world whose queue is known to start with `t`. -/
theorem step_of_tasks (S : Sem) (w : World) (t : Task) (rest : List Task)
    (h : w.tasks = t :: rest) :
    step S w =
      (match runTask S t (withTasks rest w) with
        | (w1, none) => w1
        | (w1, some e) => pushUncaught e w1) := by
  unfold step
  rw [h]

/-- Running the task `then` scheduled with the wrapped `resolve`
capability: the handler stores `this.value` into `p`, returns
`undefined`, and `parse` then fulfills the intermediate deferred. -/
theorem runHTask_capResW (p src prom : Nat) (w : World) (v : Val)
    (hv : (getD w src).value = v) :
    runHTask semHD (.capResW p) src prom w =
      (resolveM prom .undef (resolveM p v (pushEv (.inv (.capResW p) v) w)), none) := by
  rw [show runHTask semHD (.capResW p) src prom w =
      (resolveM prom .undef
        (resolveM p (getD w src).value
          (pushEv (.inv (.capResW p) (getD w src).value) w)), none) from rfl, hv]

theorem runHTask_capRejW (p src prom : Nat) (w : World) (v : Val)
    (hv : (getD w src).value = v) :
    runHTask semHD (.capRejW p) src prom w =
      (resolveM prom .undef (rejectM p v (pushEv (.inv (.capRejW p) v) w)), none) := by
  rw [show runHTask semHD (.capRejW p) src prom w =
      (resolveM prom .undef
        (rejectM p (getD w src).value
          (pushEv (.inv (.capRejW p) (getD w src).value) w)), none) from rfl, hv]

theorem adopt_tail_f (p q : Nat) (v : Val) (w : World) (hne : q ≠ p)
    (hp : p < w.heap.length) (hpend : (getD w p).status = .pending) :
    (getD (resolveM q .undef (resolveM p v w)) p).status = .fulfilled ∧
    (getD (resolveM q .undef (resolveM p v w)) p).value = v := by
  rw [getD_resolveM_ne q _ _ p hne]
  exact resolveM_pending p v w hp hpend

theorem adopt_tail_r (p q : Nat) (v : Val) (w : World) (hne : q ≠ p)
    (hp : p < w.heap.length) (hpend : (getD w p).status = .pending) :
    (getD (resolveM q .undef (rejectM p v w)) p).status = .rejected ∧
    (getD (resolveM q .undef (rejectM p v w)) p).value = v := by
  rw [getD_resolveM_ne q _ _ p hne]
  exact rejectM_pending p v w hp hpend

/-- **C7** (confirmed).  When a handler's result is a deferred `r`
distinct from the deferred `p` that `then` returned, the chaining
algorithm makes `p` adopt `r`'s outcome: starting from a quiescent
scheduler, one scheduler turn after `parse` runs, `p` is settled exactly
as `r` is (same disposition, same settled value), unwrapping one level.
And the spec's test `resolve(1).then(v => resolve(v+1)).then(v => log.push(v))`
logs `2`. -/
theorem then_flattening_adopts :
    (∀ p r v w, p ≠ r → p < w.heap.length → r < w.heap.length →
       (getD w r).status = .fulfilled → (getD w r).value = v →
       (getD w p).status = .pending → w.tasks = [] →
       (parseHD p (.ref r) w).2 = none ∧
       (getD (runSteps semHD 1 (parseHD p (.ref r) w).1) p).status = .fulfilled ∧
       (getD (runSteps semHD 1 (parseHD p (.ref r) w).1) p).value = v) ∧
    (∀ p r v w, p ≠ r → p < w.heap.length → r < w.heap.length →
       (getD w r).status = .rejected → (getD w r).value = v →
       (getD w p).status = .pending → w.tasks = [] →
       (parseHD p (.ref r) w).2 = none ∧
       (getD (runSteps semHD 1 (parseHD p (.ref r) w).1) p).status = .rejected ∧
       (getD (runSteps semHD 1 (parseHD p (.ref r) w).1) p).value = v) ∧
    exC7.log = [.num 2] := by
  refine ⟨?_, ?_, rfl⟩
  · intro p r v w hpr hp hr hst hv hpend htasks
    rw [parseHD_ref_fulfilled p r w hpr hr hst]
    refine ⟨rfl, ?_⟩
    have hne : w.heap.length ≠ p := Nat.ne_of_gt hp
    have htl : (pushTask (.hTask (.capResW p) r w.heap.length) (allocD w)).tasks
        = .hTask (.capResW p) r w.heap.length :: [] := by
      simp [pushTask, allocD, htasks]
    rw [show runSteps semHD 1 = step semHD from rfl,
      step_of_tasks semHD _ _ _ htl]
    simp only [runTask]
    rw [runHTask_capResW p r _ _ v
      (by simp only [getD, pushTask_heap, pushEv_heap, withTasks_heap, allocD]
          rw [hget_append_lt _ _ _ hr]
          simpa [getD] using hv)]
    exact adopt_tail_f p _ v _ hne
      (by simp; omega)
      (by simp only [getD, pushEv_heap, pushTask_heap, withTasks_heap, allocD]
          rw [hget_append_lt _ _ _ hp]
          simpa [getD] using hpend)
  · intro p r v w hpr hp hr hst hv hpend htasks
    rw [parseHD_ref_rejected p r w hpr hr hst]
    refine ⟨rfl, ?_⟩
    have hne : w.heap.length ≠ p := Nat.ne_of_gt hp
    have htl : (pushTask (.hTask (.capRejW p) r w.heap.length) (allocD w)).tasks
        = .hTask (.capRejW p) r w.heap.length :: [] := by
      simp [pushTask, allocD, htasks]
    rw [show runSteps semHD 1 = step semHD from rfl,
      step_of_tasks semHD _ _ _ htl]
    simp only [runTask]
    rw [runHTask_capRejW p r _ _ v
      (by simp only [getD, pushTask_heap, pushEv_heap, withTasks_heap, allocD]
          rw [hget_append_lt _ _ _ hr]
          simpa [getD] using hv)]
    exact adopt_tail_r p _ v _ hne
      (by simp; omega)
      (by simp only [getD, pushEv_heap, pushTask_heap, withTasks_heap, allocD]
          rw [hget_append_lt _ _ _ hp]
          simpa [getD] using hpend)

/-- A two-object world: deferred 0 fulfilled with `7`, deferred 1 pending. -/
def wAdopt : World :=
  ⟨[⟨.fulfilled, .num 7, []⟩, ⟨.pending, .null, []⟩], [], [], [], [], [], 0⟩

theorem then_flattening_adopts_witness :
    (parseHD 1 (.ref 0) wAdopt).2 = none ∧
    (getD (runSteps semHD 1 (parseHD 1 (.ref 0) wAdopt).1) 1).status = .fulfilled ∧
    (getD (runSteps semHD 1 (parseHD 1 (.ref 0) wAdopt).1) 1).value = .num 7 :=
  then_flattening_adopts.1 1 0 (.num 7) wAdopt
    (by decide) (by decide) (by decide) rfl rfl rfl rfl

/-! ## C8 -/

/-- **C8** (confirmed).  No continuation runs synchronously inside `then`
or inside a settlement call.  The instrumentation trace `events` records
every handler invocation, so the statement "`then` and
`resolve`/`reject` invoke no handler" is: they leave `events` (and the
user log and uncaught list) unchanged — for every state, including a
source that is already terminal when `then` is called.  Conversely, all
continuation execution goes through the scheduler: `then` on a terminal
source appends exactly one task to the queue, and the first settlement
call on a pending deferred appends exactly one drain task. -/
theorem no_synchronous_continuation :
    (∀ f r src w, ((thenCall f r src w).2).events = w.events ∧
       ((thenCall f r src w).2).log = w.log ∧
       ((thenCall f r src w).2).uncaught = w.uncaught) ∧
    (∀ p v w, (resolveM p v w).events = w.events ∧
       (resolveM p v w).log = w.log ∧ (resolveM p v w).uncaught = w.uncaught ∧
       (rejectM p v w).events = w.events ∧
       (rejectM p v w).log = w.log ∧ (rejectM p v w).uncaught = w.uncaught) ∧
    (∀ f r src w, (getD w src).status = .fulfilled →
       ((thenCall f r src w).2).tasks
         = w.tasks ++ [.hTask (f.getD (.defaultH src)) src w.heap.length]) ∧
    (∀ f r src w, (getD w src).status = .rejected →
       ((thenCall f r src w).2).tasks
         = w.tasks ++ [.hTask (r.getD (.defaultH src)) src w.heap.length]) ∧
    (∀ p v w, (getD w p).status = .pending →
       (resolveM p v w).tasks = w.tasks ++ [.drainF p v] ∧
       (rejectM p v w).tasks = w.tasks ++ [.drainR p v]) := by
  refine ⟨?_, ?_, ?_, ?_, ?_⟩
  · intro f r src w
    unfold thenCall
    rcases hs : (getD (allocD w) src).status with
      _ | _ | _ <;> simp [hs, pushTask, pushCb, bumpCb, allocD, setD]
  · intro p v w
    unfold resolveM rejectM
    rcases hs : (getD w p).status with _ | _ | _ <;> simp [hs, pushTask, settleD, setD]
  · intro f r src w h
    have h' : (getD (allocD w) src).status = .fulfilled := by
      simp only [getD, allocD] at h ⊢
      rw [status_hget_append_pending]
      exact h
    unfold thenCall
    simp [h', pushTask]
  · intro f r src w h
    have h' : (getD (allocD w) src).status = .rejected := by
      simp only [getD, allocD] at h ⊢
      rw [status_hget_append_pending]
      exact h
    unfold thenCall
    simp [h', pushTask]
  · intro p v w h
    unfold resolveM rejectM
    simp [h, pushTask, settleD, setD]

/-- A one-object world with deferred 0 fulfilled with `3`. -/
def wTerm : World := ⟨[⟨.fulfilled, .num 3, []⟩], [], [], [], [], [], 0⟩

theorem no_synchronous_continuation_witness :
    ((thenCall (some (.user .pushLog)) none 0 wTerm).2).tasks
      = [.hTask (.user .pushLog) 0 1] ∧
    (resolveM 0 (.num 1) (newDeferred World.empty).2).tasks = [.drainF 0 (.num 1)] :=
  ⟨no_synchronous_continuation.2.2.1 (some (.user .pushLog)) none 0 wTerm rfl,
   (no_synchronous_continuation.2.2.2.2 0 (.num 1) (newDeferred World.empty).2 rfl).1⟩

/-! ## C9 -/

theorem callbacks_hget_append_pending (l : List Dobj) (i : Nat) :
    (hget (l ++ [⟨.pending, .null, []⟩]) i).callbacks = (hget l i).callbacks := by
  induction l generalizing i with
  | nil => cases i <;> rfl
  | cons a t ih => cases i with
      | zero => rfl
      | succ n => exact ih n

theorem resolveM_events (p : Nat) (v : Val) (w : World) :
    (resolveM p v w).events = w.events := by
  unfold resolveM
  split <;> simp [pushTask, settleD, setD]

theorem rejectM_events (p : Nat) (v : Val) (w : World) :
    (rejectM p v w).events = w.events := by
  unfold rejectM
  split <;> simp [pushTask, settleD, setD]

theorem thenCall_events (f r : Option HandlerFn) (src : Nat) (w : World) :
    ((thenCall f r src w).2).events = w.events := by
  unfold thenCall
  rcases hs : (getD (allocD w) src).status with
    _ | _ | _ <;> simp [hs, pushTask, pushCb, bumpCb, allocD, setD]

theorem evalHExpr_events (e : HExpr) (a : Val) (w : World) :
    (evalHExpr semHD e a w).1.events = w.events := by
  cases e with
  | resolveAdd n =>
      simp only [evalHExpr, semHD, resolveSHD, newDeferred, jsAdd]
      cases a <;> simp [resolveM_events]
  | _ => simp [evalHExpr, pushLogV]

/-- Every handler invocation appends exactly its own `inv` record to the
trace and nothing else: handler bodies only *schedule* further work. -/
theorem invokeH_events (h : HandlerFn) (a : Val) (w : World) :
    (invokeH semHD h a w).1.events = w.events ++ [.inv h a] := by
  cases h with
  | user e =>
      simp only [invokeH]
      rw [evalHExpr_events]
      simp [pushEv]
  | allF arr n p =>
      simp only [invokeH]
      split <;> simp [resolveM_events, pushEv]
  | _ => simp [invokeH, resolveM_events, rejectM_events, pushEv]

theorem parseHD_events (p : Nat) (result : Val) (w : World) :
    (parseHD p result w).1.events = w.events := by
  unfold parseHD
  split
  · rfl
  · cases result <;> simp [thenCall_events, resolveM_events]

/-- Dispatching one registered waiter appends its `winv` record, the
handler's `inv` record, and nothing else to the trace. -/
theorem runCb_events (b : Bool) (c : CallbackPair) (v : Val) (w : World) :
    (runCb semHD b c v w).1.events
      = w.events ++ [.winv c.cbId, .inv (if b then c.onF else c.onR) v] := by
  unfold runCb
  rcases hinv : invokeH semHD (if b then c.onF else c.onR) v (pushEv (.winv c.cbId) w)
    with ⟨w2, res⟩
  have hev : w2.events = w.events ++ [.winv c.cbId, .inv (if b then c.onF else c.onR) v] := by
    have := invokeH_events (if b then c.onF else c.onR) v (pushEv (.winv c.cbId) w)
    rw [hinv] at this
    simpa [pushEv] using this
  dsimp only
  rw [hinv]
  cases res with
  | ok result => simp [semHD, parseHD_events, hev]
  | error e => simp [hev]

/-- Settlement dispatch processes the registered waiters in insertion
order: when no handler throws, the trace grows by exactly the per-waiter
records in list order. -/
theorem drainList_events_of_ok (b : Bool) (cbs : List CallbackPair) (v : Val) (w : World)
    (h : (drainList semHD b cbs v w).2 = none) :
    (drainList semHD b cbs v w).1.events
      = w.events ++ cbs.flatMap
          (fun c => [.winv c.cbId, .inv (if b then c.onF else c.onR) v]) := by
  induction cbs generalizing w with
  | nil => simp [drainList]
  | cons c rest ih =>
      rcases hrc : runCb semHD b c v w with ⟨w1, o⟩
      have hev := runCb_events b c v w
      rw [hrc] at hev
      cases o with
      | none =>
          have hd : drainList semHD b (c :: rest) v w = drainList semHD b rest v w1 := by
            simp [drainList, hrc]
          rw [hd] at h ⊢
          rw [ih w1 h, hev]
          simp
      | some e =>
          exfalso
          have : (drainList semHD b (c :: rest) v w).2 = some e := by
            simp [drainList, hrc]
          rw [h] at this
          exact Option.noConfusion this

/-- **C9** (counterexample).  The claim says the waiters list is cleared
at settlement: after the settlement task runs, the list is empty.  On a
pending deferred with one registered waiter, settled and run to
quiescence, the drained deferred still holds its waiter: the code's
settlement task maps over `this.callbacks` but never clears it. -/
theorem waiters_not_cleared_cex :
    (getD exC9 0).status = .fulfilled ∧
    (getD exC9 0).callbacks.length = 1 ∧
    exC9.tasks = [] ∧
    exC9.log = [.str "v"] := by
  refine ⟨rfl, rfl, rfl, rfl⟩

/-! ## Programs over the public surface, and the `HD` / `CPromise` erasure -/

/-- One step of a client program using only the public surface of the
class: construction, the static combinators, `then` with optional user
handlers, the settlement capabilities handed to an executor, and letting
the scheduler run one turn.  Commands addressing a reference that does
not exist are skipped (such references cannot be formed in JS). -/
inductive Cmd where
  | newD
  | resolveStat (v : Val)
  | rejectStat (v : Val)
  | allStat (ids : List Nat)
  | raceStat (ids : List Nat)
  | thenC (src : Nat) (onF : Option HExpr) (onR : Option HExpr)
  | settleF (p : Nat) (v : Val)
  | settleR (p : Nat) (v : Val)
  | turn

def runCmd (S : Sem) (w : World) : Cmd → World
  | .newD => (newDeferred w).2
  | .resolveStat v => (S.sres v w).2
  | .rejectStat v => (rejectS v w).2
  | .allStat ids =>
      if ids.all (fun i => i < w.heap.length) then (allCall ids w).2 else w
  | .raceStat ids =>
      if ids.all (fun i => i < w.heap.length) then (raceCall ids w).2 else w
  | .thenC src f r =>
      if src < w.heap.length then (thenCall (f.map .user) (r.map .user) src w).2 else w
  | .settleF p v => if p < w.heap.length then resolveM p v w else w
  | .settleR p v => if p < w.heap.length then rejectM p v w else w
  | .turn => step S w

def runProg (S : Sem) : List Cmd → World → World
  | [], w => w
  | c :: cs, w => runProg S cs (runCmd S w c)

/-- Erase the (behaviourally invisible) eta-wrapping distinction between
`HD`'s `(value) => { resolve(value); }` arrows and `CPromise`'s bound
capabilities. -/
def eraseH : HandlerFn → HandlerFn
  | .capResW p => .capRes p
  | .capRejW p => .capRej p
  | h => h

def eraseCb (c : CallbackPair) : CallbackPair :=
  { c with onF := eraseH c.onF, onR := eraseH c.onR }

def eraseD (d : Dobj) : Dobj := { d with callbacks := d.callbacks.map eraseCb }

def eraseTask : Task → Task
  | .hTask h s p => .hTask (eraseH h) s p
  | t => t

def eraseEv : Ev → Ev
  | .inv h a => .inv (eraseH h) a
  | e => e

def eraseW (w : World) : World :=
  { heap := w.heap.map eraseD, tasks := w.tasks.map eraseTask, arrays := w.arrays,
    log := w.log, uncaught := w.uncaught, events := w.events.map eraseEv,
    nextCb := w.nextCb }

theorem eraseD_default : eraseD default = default := rfl

theorem hget_map_eraseD (l : List Dobj) (i : Nat) :
    hget (l.map eraseD) i = eraseD (hget l i) := by
  induction l generalizing i with
  | nil => cases i <;> rfl
  | cons a t ih => cases i with
      | zero => rfl
      | succ n => exact ih n

theorem hset_map_eraseD (l : List Dobj) (i : Nat) (d : Dobj) :
    hset (l.map eraseD) i (eraseD d) = (hset l i d).map eraseD := by
  induction l generalizing i with
  | nil => rfl
  | cons a t ih => cases i with
      | zero => rfl
      | succ n => simp [hset, ih n]

theorem getD_eraseW (w : World) (i : Nat) : getD (eraseW w) i = eraseD (getD w i) := by
  simp [getD, eraseW, hget_map_eraseD]

theorem status_eraseD (d : Dobj) : (eraseD d).status = d.status := rfl

theorem value_eraseD (d : Dobj) : (eraseD d).value = d.value := rfl

theorem eraseW_settleD (p : Nat) (st : Status) (v : Val) (w : World) :
    eraseW (settleD p st v w) = settleD p st v (eraseW w) := by
  unfold settleD setD
  simp only [eraseW, hget_map_eraseD]
  rw [show ({ eraseD (hget w.heap p) with status := st, value := v } : Dobj)
      = eraseD { hget w.heap p with status := st, value := v } from by simp [eraseD],
    hset_map_eraseD]

theorem eraseW_resolveM (p : Nat) (v : Val) (w : World) :
    eraseW (resolveM p v w) = resolveM p v (eraseW w) := by
  unfold resolveM
  rw [getD_eraseW, status_eraseD]
  split
  · rw [show eraseW (pushTask (.drainF p v) (settleD p .fulfilled v w))
        = pushTask (.drainF p v) (eraseW (settleD p .fulfilled v w)) from by
      simp [eraseW, pushTask, settleD, setD, eraseTask]]
    rw [eraseW_settleD]
  · rfl

theorem eraseW_rejectM (p : Nat) (v : Val) (w : World) :
    eraseW (rejectM p v w) = rejectM p v (eraseW w) := by
  unfold rejectM
  rw [getD_eraseW, status_eraseD]
  split
  · rw [show eraseW (pushTask (.drainR p v) (settleD p .rejected v w))
        = pushTask (.drainR p v) (eraseW (settleD p .rejected v w)) from by
      simp [eraseW, pushTask, settleD, setD, eraseTask]]
    rw [eraseW_settleD]
  · rfl

theorem eraseH_optGetD (f : Option HandlerFn) (src : Nat) :
    (f.map eraseH).getD (.defaultH src) = eraseH (f.getD (.defaultH src)) := by
  cases f <;> rfl

theorem eraseW_heap_length (w : World) : (eraseW w).heap.length = w.heap.length := by
  simp [eraseW]

theorem eraseW_allocD (w : World) : eraseW (allocD w) = allocD (eraseW w) := by
  simp [eraseW, allocD]
  rfl

theorem eraseW_bumpCb (w : World) : eraseW (bumpCb w) = bumpCb (eraseW w) := rfl

theorem eraseW_pushTask (t : Task) (w : World) :
    eraseW (pushTask t w) = pushTask (eraseTask t) (eraseW w) := by
  simp [eraseW, pushTask]

theorem eraseW_pushEv (e : Ev) (w : World) :
    eraseW (pushEv e w) = pushEv (eraseEv e) (eraseW w) := by
  simp [eraseW, pushEv]

theorem eraseW_pushLogV (v : Val) (w : World) :
    eraseW (pushLogV v w) = pushLogV v (eraseW w) := rfl

theorem eraseW_pushCb (src : Nat) (c : CallbackPair) (w : World) :
    eraseW (pushCb src c w) = pushCb src (eraseCb c) (eraseW w) := by
  unfold pushCb setD
  simp only [eraseW, hget_map_eraseD]
  rw [show ({ eraseD (hget w.heap src) with
        callbacks := (eraseD (hget w.heap src)).callbacks ++ [eraseCb c] } : Dobj)
      = eraseD { hget w.heap src with callbacks := (hget w.heap src).callbacks ++ [c] }
      from by simp [eraseD], hset_map_eraseD]

theorem eraseW_thenCall (f r : Option HandlerFn) (src : Nat) (w : World) :
    thenCall (f.map eraseH) (r.map eraseH) src (eraseW w)
      = ((thenCall f r src w).1, eraseW (thenCall f r src w).2) := by
  unfold thenCall
  have hstat : (getD (allocD (eraseW w)) src).status = (getD (allocD w) src).status := by
    rw [← eraseW_allocD, getD_eraseW, status_eraseD]
  rcases hs : (getD (allocD w) src).status with _ | _ | _ <;>
    rw [hstat, hs] <;> dsimp only <;> simp only [eraseH_optGetD, eraseW_heap_length] <;>
    refine Prod.ext rfl ?_
  · rw [show (eraseW w).nextCb = w.nextCb from rfl,
      show (⟨w.nextCb, eraseH (f.getD (.defaultH src)), eraseH (r.getD (.defaultH src)),
          w.heap.length⟩ : CallbackPair)
        = eraseCb ⟨w.nextCb, f.getD (.defaultH src), r.getD (.defaultH src), w.heap.length⟩
        from rfl,
      ← eraseW_allocD, ← eraseW_bumpCb, ← eraseW_pushCb]
  · rw [← eraseW_allocD,
      show (Task.hTask (eraseH (f.getD (.defaultH src))) src w.heap.length)
        = eraseTask (.hTask (f.getD (.defaultH src)) src w.heap.length) from rfl,
      ← eraseW_pushTask]
  · rw [← eraseW_allocD,
      show (Task.hTask (eraseH (r.getD (.defaultH src))) src w.heap.length)
        = eraseTask (.hTask (r.getD (.defaultH src)) src w.heap.length) from rfl,
      ← eraseW_pushTask]

@[simp] theorem eraseW_arrays (w : World) : (eraseW w).arrays = w.arrays := rfl
@[simp] theorem eraseW_log (w : World) : (eraseW w).log = w.log := rfl
@[simp] theorem eraseW_uncaught (w : World) : (eraseW w).uncaught = w.uncaught := rfl
@[simp] theorem eraseW_nextCb (w : World) : (eraseW w).nextCb = w.nextCb := rfl

theorem eraseW_setArr (a : Nat) (l : List Val) (w : World) :
    eraseW (setArr a l w) = setArr a l (eraseW w) := rfl

theorem eraseW_pushArr (w : World) : eraseW (pushArr w) = pushArr (eraseW w) := rfl

theorem eraseW_withTasks (ts : List Task) (w : World) :
    eraseW (withTasks ts w) = withTasks (ts.map eraseTask) (eraseW w) := rfl

theorem eraseW_pushUncaught (e : Val) (w : World) :
    eraseW (pushUncaught e w) = pushUncaught e (eraseW w) := rfl

theorem eraseW_newDeferred (w : World) :
    newDeferred (eraseW w) = ((newDeferred w).1, eraseW (newDeferred w).2) := by
  unfold newDeferred
  rw [eraseW_heap_length, eraseW_allocD]

/-- The two `parse` methods differ only by the eta-wrapping of the
capabilities they subscribe with: after erasure they act identically. -/
theorem parse_erase (p : Nat) (result : Val) (w : World) :
    parseCP p result (eraseW w)
      = (eraseW (parseHD p result w).1, (parseHD p result w).2) := by
  unfold parseCP parseHD
  split
  · rfl
  · cases result <;>
      simp only [eraseW_resolveM] <;>
      try rfl
    rw [show (some (HandlerFn.capRes p)) = (some (HandlerFn.capResW p)).map eraseH from rfl,
      show (some (HandlerFn.capRej p)) = (some (HandlerFn.capRejW p)).map eraseH from rfl,
      eraseW_thenCall]

/-- The two static `resolve`s likewise differ only by eta-wrapping. -/
theorem sres_erase (v : Val) (w : World) :
    resolveSCP v (eraseW w)
      = ((resolveSHD v w).1, eraseW (resolveSHD v w).2) := by
  unfold resolveSCP resolveSHD
  rw [eraseW_newDeferred]
  cases v <;> dsimp only <;> try rw [eraseW_resolveM]
  rw [show (some (HandlerFn.capRes (newDeferred w).1))
        = (some (HandlerFn.capResW (newDeferred w).1)).map eraseH from rfl,
    show (some (HandlerFn.capRej (newDeferred w).1))
        = (some (HandlerFn.capRejW (newDeferred w).1)).map eraseH from rfl,
    eraseW_thenCall]

theorem rejectS_erase (v : Val) (w : World) :
    rejectS v (eraseW w) = ((rejectS v w).1, eraseW (rejectS v w).2) := by
  unfold rejectS
  rw [eraseW_newDeferred]
  dsimp only
  rw [eraseW_rejectM]

/-- Subscription loops built from erase-fixed handlers commute with the
erasure. -/
theorem foldl_thenCall_erase (h1 h2 : HandlerFn)
    (e1 : eraseH h1 = h1) (e2 : eraseH h2 = h2) (ids : List Nat) (w : World) :
    ids.foldl (fun wacc q => (thenCall (some h1) (some h2) q wacc).2) (eraseW w)
      = eraseW (ids.foldl (fun wacc q => (thenCall (some h1) (some h2) q wacc).2) w) := by
  have hone : ∀ (wx : World) (q : Nat),
      (thenCall (some h1) (some h2) q (eraseW wx)).2
        = eraseW (thenCall (some h1) (some h2) q wx).2 := by
    intro wx q
    have hc := eraseW_thenCall (some h1) (some h2) q wx
    rw [show (some h1).map eraseH = some h1 from by simp [e1],
      show (some h2).map eraseH = some h2 from by simp [e2]] at hc
    exact congrArg Prod.snd hc
  induction ids generalizing w with
  | nil => rfl
  | cons q rest ih =>
      simp only [List.foldl_cons]
      rw [hone w q]
      exact ih _

theorem allCall_erase (ids : List Nat) (w : World) :
    allCall ids (eraseW w) = ((allCall ids w).1, eraseW (allCall ids w).2) := by
  unfold allCall
  rw [eraseW_newDeferred]
  dsimp only
  rw [show (eraseW (newDeferred w).2).arrays = ((newDeferred w).2).arrays from rfl,
    ← eraseW_pushArr,
    foldl_thenCall_erase (.allF ((newDeferred w).2).arrays.length ids.length (newDeferred w).1)
      (.capRej (newDeferred w).1) rfl rfl]

theorem raceCall_erase (ids : List Nat) (w : World) :
    raceCall ids (eraseW w) = ((raceCall ids w).1, eraseW (raceCall ids w).2) := by
  unfold raceCall
  rw [eraseW_newDeferred]
  dsimp only
  rw [foldl_thenCall_erase (.capRes (newDeferred w).1) (.capRej (newDeferred w).1) rfl rfl]

theorem callbacks_eraseD (d : Dobj) :
    (eraseD d).callbacks = d.callbacks.map eraseCb := rfl

theorem evalHExpr_erase (e : HExpr) (a : Val) (w : World) :
    evalHExpr semCP e a (eraseW w)
      = (eraseW (evalHExpr semHD e a w).1, (evalHExpr semHD e a w).2) := by
  cases e with
  | resolveAdd n =>
      dsimp only [evalHExpr, semCP, semHD]
      rw [sres_erase]
  | pushLog => exact congrArg (fun x => (x, Except.ok Val.undef)) (eraseW_pushLogV a w).symm
  | _ => rfl

theorem invokeH_erase (h : HandlerFn) (a : Val) (w : World) :
    invokeH semCP (eraseH h) a (eraseW w)
      = (eraseW (invokeH semHD h a w).1, (invokeH semHD h a w).2) := by
  cases h with
  | user e =>
      dsimp only [invokeH, eraseH]
      rw [show pushEv (.inv (.user e) a) (eraseW w)
            = eraseW (pushEv (.inv (.user e) a) w)
            from (eraseW_pushEv (.inv (.user e) a) w).symm,
        evalHExpr_erase]
  | defaultH src =>
      dsimp only [invokeH, eraseH]
      rw [show pushEv (.inv (.defaultH src) a) (eraseW w)
            = eraseW (pushEv (.inv (.defaultH src) a) w)
            from (eraseW_pushEv (.inv (.defaultH src) a) w).symm,
        getD_eraseW, value_eraseD]
  | capRes p =>
      dsimp only [invokeH, eraseH]
      rw [show pushEv (.inv (.capRes p) a) (eraseW w)
            = eraseW (pushEv (.inv (.capRes p) a) w)
            from (eraseW_pushEv (.inv (.capRes p) a) w).symm,
        eraseW_resolveM]
  | capResW p =>
      dsimp only [invokeH, eraseH]
      rw [show pushEv (.inv (.capRes p) a) (eraseW w)
            = eraseW (pushEv (.inv (.capResW p) a) w)
            from (eraseW_pushEv (.inv (.capResW p) a) w).symm,
        eraseW_resolveM]
  | capRej p =>
      dsimp only [invokeH, eraseH]
      rw [show pushEv (.inv (.capRej p) a) (eraseW w)
            = eraseW (pushEv (.inv (.capRej p) a) w)
            from (eraseW_pushEv (.inv (.capRej p) a) w).symm,
        eraseW_rejectM]
  | capRejW p =>
      dsimp only [invokeH, eraseH]
      rw [show pushEv (.inv (.capRej p) a) (eraseW w)
            = eraseW (pushEv (.inv (.capRejW p) a) w)
            from (eraseW_pushEv (.inv (.capRejW p) a) w).symm,
        eraseW_rejectM]
  | allF arr n p =>
      dsimp only [invokeH, eraseH]
      rw [show pushEv (.inv (.allF arr n p) a) (eraseW w)
            = eraseW (pushEv (.inv (.allF arr n p) a) w)
            from (eraseW_pushEv (.inv (.allF arr n p) a) w).symm]
      rw [show (eraseW (pushEv (.inv (.allF arr n p) a) w)).arrays
            = (pushEv (.inv (.allF arr n p) a) w).arrays from rfl]
      rw [show setArr arr ((pushEv (.inv (.allF arr n p) a) w).arrays.getD arr [] ++ [a])
              (eraseW (pushEv (.inv (.allF arr n p) a) w))
            = eraseW (setArr arr ((pushEv (.inv (.allF arr n p) a) w).arrays.getD arr [] ++ [a])
              (pushEv (.inv (.allF arr n p) a) w)) from rfl]
      split
      · rw [eraseW_resolveM]
      · rfl

theorem runCb_erase (b : Bool) (c : CallbackPair) (v : Val) (w : World) :
    runCb semCP b (eraseCb c) v (eraseW w)
      = (eraseW (runCb semHD b c v w).1, (runCb semHD b c v w).2) := by
  unfold runCb
  dsimp only
  rw [show (if b then (eraseCb c).onF else (eraseCb c).onR)
        = eraseH (if b then c.onF else c.onR) from by cases b <;> rfl,
    show (eraseCb c).cbId = c.cbId from rfl,
    show pushEv (.winv c.cbId) (eraseW w)
        = eraseW (pushEv (.winv c.cbId) w) from (eraseW_pushEv (.winv c.cbId) w).symm,
    invokeH_erase]
  rcases hiv : invokeH semHD (if b then c.onF else c.onR) v (pushEv (.winv c.cbId) w)
    with ⟨w2, res⟩
  cases res with
  | ok result =>
      dsimp only
      rw [show (eraseCb c).prom = c.prom from rfl]
      exact parse_erase c.prom result w2
  | error e => rfl

theorem drainList_erase (b : Bool) (cbs : List CallbackPair) (v : Val) (w : World) :
    drainList semCP b (cbs.map eraseCb) v (eraseW w)
      = (eraseW (drainList semHD b cbs v w).1, (drainList semHD b cbs v w).2) := by
  induction cbs generalizing w with
  | nil => rfl
  | cons c rest ih =>
      simp only [List.map_cons, drainList]
      rw [runCb_erase]
      rcases hrc : runCb semHD b c v w with ⟨w1, o⟩
      cases o with
      | none => exact ih w1
      | some e => rfl

theorem runHTask_erase (h : HandlerFn) (src prom : Nat) (w : World) :
    runHTask semCP (eraseH h) src prom (eraseW w)
      = (eraseW (runHTask semHD h src prom w).1, (runHTask semHD h src prom w).2) := by
  unfold runHTask
  rw [getD_eraseW, value_eraseD, invokeH_erase]
  rcases hiv : invokeH semHD h (getD w src).value w with ⟨w1, res⟩
  cases res with
  | ok result =>
      dsimp only
      exact parse_erase prom result w1
  | error e => rfl

theorem runTask_erase (t : Task) (w : World) :
    runTask semCP (eraseTask t) (eraseW w)
      = (eraseW (runTask semHD t w).1, (runTask semHD t w).2) := by
  cases t with
  | drainF i v =>
      show drainList semCP true (getD (eraseW w) i).callbacks v (eraseW w) = _
      rw [getD_eraseW, callbacks_eraseD]
      exact drainList_erase true (getD w i).callbacks v w
  | drainR i v =>
      show drainList semCP false (getD (eraseW w) i).callbacks v (eraseW w) = _
      rw [getD_eraseW, callbacks_eraseD]
      exact drainList_erase false (getD w i).callbacks v w
  | hTask h src prom => exact runHTask_erase h src prom w

theorem eraseW_tasks_eq (w : World) : (eraseW w).tasks = w.tasks.map eraseTask := rfl

theorem step_erase (w : World) : step semCP (eraseW w) = eraseW (step semHD w) := by
  rcases ht : w.tasks with _ | ⟨t, rest⟩
  · have h2 : (eraseW w).tasks = [] := by rw [eraseW_tasks_eq, ht]; rfl
    unfold step
    rw [h2, ht]
  · have h2 : (eraseW w).tasks = eraseTask t :: rest.map eraseTask := by
      rw [eraseW_tasks_eq, ht]; rfl
    unfold step
    rw [h2, ht]
    dsimp only
    rw [show withTasks (rest.map eraseTask) (eraseW w)
          = eraseW (withTasks rest w) from (eraseW_withTasks _ _).symm,
      runTask_erase]
    rcases hrt : runTask semHD t (withTasks rest w) with ⟨w1, o⟩
    cases o with
    | none => rfl
    | some e => exact (eraseW_pushUncaught e w1).symm

theorem runSteps_erase (n : Nat) (w : World) :
    runSteps semCP n (eraseW w) = eraseW (runSteps semHD n w) := by
  induction n generalizing w with
  | zero => rfl
  | succ m ih =>
      simp only [runSteps]
      rw [step_erase, ih]

theorem runCmd_erase (w : World) (c : Cmd) :
    runCmd semCP (eraseW w) c = eraseW (runCmd semHD w c) := by
  cases c with
  | newD => exact congrArg Prod.snd (eraseW_newDeferred w)
  | resolveStat v =>
      show (resolveSCP v (eraseW w)).2 = eraseW (resolveSHD v w).2
      rw [sres_erase]
  | rejectStat v =>
      show (rejectS v (eraseW w)).2 = eraseW (rejectS v w).2
      rw [rejectS_erase]
  | allStat ids =>
      show (if ids.all (fun i => i < (eraseW w).heap.length) then (allCall ids (eraseW w)).2
            else eraseW w)
          = eraseW (if ids.all (fun i => i < w.heap.length) then (allCall ids w).2 else w)
      rw [eraseW_heap_length]
      split
      · rw [allCall_erase]
      · rfl
  | raceStat ids =>
      show (if ids.all (fun i => i < (eraseW w).heap.length) then (raceCall ids (eraseW w)).2
            else eraseW w)
          = eraseW (if ids.all (fun i => i < w.heap.length) then (raceCall ids w).2 else w)
      rw [eraseW_heap_length]
      split
      · rw [raceCall_erase]
      · rfl
  | thenC src f r =>
      show (if src < (eraseW w).heap.length
            then (thenCall (f.map .user) (r.map .user) src (eraseW w)).2 else eraseW w)
          = eraseW (if src < w.heap.length
            then (thenCall (f.map .user) (r.map .user) src w).2 else w)
      rw [eraseW_heap_length]
      split
      · conv_lhs => rw [show (f.map HandlerFn.user) = (f.map HandlerFn.user).map eraseH from by
            cases f <;> rfl,
          show (r.map HandlerFn.user) = (r.map HandlerFn.user).map eraseH from by
            cases r <;> rfl]
        rw [eraseW_thenCall]
      · rfl
  | settleF p v =>
      show (if p < (eraseW w).heap.length then resolveM p v (eraseW w) else eraseW w)
          = eraseW (if p < w.heap.length then resolveM p v w else w)
      rw [eraseW_heap_length]
      split
      · rw [eraseW_resolveM]
      · rfl
  | settleR p v =>
      show (if p < (eraseW w).heap.length then rejectM p v (eraseW w) else eraseW w)
          = eraseW (if p < w.heap.length then rejectM p v w else w)
      rw [eraseW_heap_length]
      split
      · rw [eraseW_rejectM]
      · rfl
  | turn => exact step_erase w

theorem runProg_erase (cmds : List Cmd) (w : World) :
    runProg semCP cmds (eraseW w) = eraseW (runProg semHD cmds w) := by
  induction cmds generalizing w with
  | nil => rfl
  | cons c cs ih =>
      simp only [runProg]
      rw [runCmd_erase, ih]

theorem eraseEv_idem (e : Ev) : eraseEv (eraseEv e) = eraseEv e := by
  cases e with
  | inv h a => cases h <;> rfl
  | winv i => rfl

/-- **C10** (confirmed).  `HD` (src/unnamed/part_000) and `CPromise`
(src/unnamed/part_001) are behaviourally equivalent.  The two classes
differ textually only in (a) the order in which `then` tests its two
non-callable arguments (unobservable), and (b) `parse` / static `resolve`
subscribing with eta-wrapped arrows `(value) => { resolve(value); }`
versus the bound capabilities `resolve`/`reject` directly.  For every
client program over the public surface, running it under the `CPromise`
semantics produces exactly the erasure (`eraseW`, which forgets only the
eta-wrapping tag on capability handlers) of the `HD` run: in particular
the sequence of states and settled values of every deferred, the user log,
the uncaught-exception list, and the handler-invocation trace (up to the
same tag) coincide. -/
theorem hd_cpromise_equivalent :
    ∀ cmds : List Cmd,
      runProg semCP cmds World.empty = eraseW (runProg semHD cmds World.empty) ∧
      (runProg semCP cmds World.empty).heap.map (fun d => (d.status, d.value))
        = (runProg semHD cmds World.empty).heap.map (fun d => (d.status, d.value)) ∧
      (runProg semCP cmds World.empty).log = (runProg semHD cmds World.empty).log ∧
      (runProg semCP cmds World.empty).uncaught
        = (runProg semHD cmds World.empty).uncaught ∧
      (runProg semCP cmds World.empty).events.map eraseEv
        = (runProg semHD cmds World.empty).events.map eraseEv := by
  intro cmds
  have hmain : runProg semCP cmds World.empty
      = eraseW (runProg semHD cmds World.empty) := by
    have h := runProg_erase cmds World.empty
    rwa [show eraseW World.empty = World.empty from rfl] at h
  refine ⟨hmain, ?_, ?_, ?_, ?_⟩
  · rw [hmain]
    show ((runProg semHD cmds World.empty).heap.map eraseD).map _ = _
    rw [List.map_map]
    rfl
  · rw [hmain, eraseW_log]
  · rw [hmain, eraseW_uncaught]
  · rw [hmain]
    show ((runProg semHD cmds World.empty).events.map eraseEv).map eraseEv = _
    rw [List.map_map]
    exact List.map_congr_left (fun e _ => eraseEv_idem e)

/-! ## The waiter-dispatch discipline (C9): no waiter is ever invoked twice

The instrumentation trace marks every dispatch of a registered waiter with
its unique `winv` identifier.  We prove a global invariant of the `HD`
machine implying that no identifier is ever recorded twice over any
program run. -/

/-- The waiter identifiers dispatched so far, in dispatch order. -/
def winvIds (evs : List Ev) : List Nat :=
  evs.filterMap fun e => match e with | .winv i => some i | _ => none

/-- The identifiers of the waiters currently registered on one object. -/
def cbIds (d : Dobj) : List Nat := d.callbacks.map (·.cbId)

def isDrainFor (i : Nat) : Task → Bool
  | .drainF j _ => j == i
  | .drainR j _ => j == i
  | _ => false

/-- How many settlement drain tasks for deferred `i` sit in the queue. -/
def drainCount (i : Nat) (ts : List Task) : Nat := (ts.filter (isDrainFor i)).length

/-- A handler only references live deferreds. -/
def hOk (n : Nat) : HandlerFn → Prop
  | .capRes p => p < n
  | .capRej p => p < n
  | .capResW p => p < n
  | .capRejW p => p < n
  | .allF _ _ p => p < n
  | _ => True

def cbOk (n : Nat) (c : CallbackPair) : Prop :=
  hOk n c.onF ∧ hOk n c.onR ∧ c.prom < n

def taskOk (n : Nat) : Task → Prop
  | .drainF i _ => i < n
  | .drainR i _ => i < n
  | .hTask h _ p => hOk n h ∧ p < n

/-- The global machine invariant behind the waiter discipline:
well-formed handler references, waiter identifiers globally distinct and
below the freshness counter, each dispatched identifier recorded at most
once, no drain task for a pending deferred and at most one drain task per
deferred, and the waiters of any deferred that is still pending or whose
drain task has not yet run are undispatched. -/
structure Inv (w : World) : Prop where
  cbok : ∀ i, ∀ c ∈ (getD w i).callbacks, cbOk w.heap.length c
  tok : ∀ t ∈ w.tasks, taskOk w.heap.length t
  cbLt : ∀ i, ∀ cid ∈ cbIds (getD w i), cid < w.nextCb
  evLt : ∀ cid ∈ winvIds w.events, cid < w.nextCb
  cbNdL : ∀ i, (cbIds (getD w i)).Nodup
  cbDisj : ∀ i j, i ≠ j → ∀ cid, cid ∈ cbIds (getD w i) → cid ∉ cbIds (getD w j)
  evNd : (winvIds w.events).Nodup
  pendNoDrain : ∀ i, (getD w i).status = .pending → drainCount i w.tasks = 0
  fresh : ∀ i, ((getD w i).status = .pending ∨ drainCount i w.tasks ≠ 0) →
      ∀ cid ∈ cbIds (getD w i), cid ∉ winvIds w.events
  oneDrain : ∀ i, drainCount i w.tasks ≤ 1

/-- Summary of the effect of running library/handler code (as opposed to
dispatching a waiter): the heap and counter only grow, no `winv` record is
added, waiter lists only gain fresh identifiers, no deferred becomes
pending, and drain tasks appear only for deferreds that were pending. -/
structure Ext (w w' : World) : Prop where
  len : w.heap.length ≤ w'.heap.length
  ncb : w.nextCb ≤ w'.nextCb
  winv : winvIds w'.events = winvIds w.events
  grow : ∀ j cid, cid ∈ cbIds (getD w' j) → cid ∈ cbIds (getD w j) ∨ w.nextCb ≤ cid
  pend : ∀ j, (getD w' j).status = .pending → (getD w j).status = .pending
  drains : ∀ j, drainCount j w'.tasks ≠ 0 →
      drainCount j w.tasks ≠ 0 ∨ (getD w j).status = .pending

theorem Ext.sameW (w : World) : Ext w w :=
  ⟨le_refl _, le_refl _, Eq.refl _, fun _ _ h => Or.inl h, fun _ h => h, fun _ h => Or.inl h⟩

theorem Ext.trans {w1 w2 w3 : World} (a : Ext w1 w2) (b : Ext w2 w3) : Ext w1 w3 := by
  refine ⟨a.len.trans b.len, a.ncb.trans b.ncb, by rw [b.winv, a.winv], ?_, ?_, ?_⟩
  · intro j cid h
    rcases b.grow j cid h with h2 | h2
    · exact a.grow j cid h2
    · exact Or.inr (a.ncb.trans h2)
  · intro j h
    exact a.pend j (b.pend j h)
  · intro j h
    rcases b.drains j h with h2 | h2
    · exact a.drains j h2
    · rcases a.pend j h2 with h3
      exact Or.inr h3

theorem hOk_mono {n m : Nat} (h : n ≤ m) : ∀ {f : HandlerFn}, hOk n f → hOk m f := by
  intro f
  cases f <;> simp [hOk] <;> omega

theorem cbOk_mono {n m : Nat} (h : n ≤ m) {c : CallbackPair} (hc : cbOk n c) :
    cbOk m c :=
  ⟨hOk_mono h hc.1, hOk_mono h hc.2.1, lt_of_lt_of_le hc.2.2 h⟩

theorem taskOk_mono {n m : Nat} (h : n ≤ m) : ∀ {t : Task}, taskOk n t → taskOk m t := by
  intro t
  cases t with
  | drainF i v => exact fun ht => lt_of_lt_of_le ht h
  | drainR i v => exact fun ht => lt_of_lt_of_le ht h
  | hTask f s p => exact fun ht => ⟨hOk_mono h ht.1, lt_of_lt_of_le ht.2 h⟩

theorem winvIds_append (a b : List Ev) : winvIds (a ++ b) = winvIds a ++ winvIds b := by
  simp [winvIds, List.filterMap_append]

@[simp] theorem winvIds_inv (h : HandlerFn) (a : Val) : winvIds [.inv h a] = [] := rfl

@[simp] theorem winvIds_winv (k : Nat) : winvIds [.winv k] = [k] := rfl

theorem nodup_snoc (l : List Nat) (k : Nat) :
    (l ++ [k]).Nodup ↔ l.Nodup ∧ k ∉ l := by
  constructor
  · intro h
    rcases List.nodup_append.mp h with ⟨h1, _, h3⟩
    exact ⟨h1, fun hk => h3 hk (List.mem_singleton_self k)⟩
  · rintro ⟨h1, h2⟩
    refine List.nodup_append.mpr ⟨h1, List.nodup_singleton k, ?_⟩
    intro a ha hb
    rw [List.mem_singleton] at hb
    subst hb
    exact h2 ha

theorem drainCount_append (i : Nat) (a b : List Task) :
    drainCount i (a ++ b) = drainCount i a + drainCount i b := by
  simp [drainCount, List.filter_append]

@[simp] theorem drainCount_hTask (i : Nat) (h : HandlerFn) (s p : Nat) :
    drainCount i [.hTask h s p] = 0 := rfl

theorem drainCount_drainF (i j : Nat) (v : Val) :
    drainCount i [.drainF j v] = if j = i then 1 else 0 := by
  simp [drainCount, isDrainFor, List.filter]
  split <;> simp_all

theorem drainCount_drainR (i j : Nat) (v : Val) :
    drainCount i [.drainR j v] = if j = i then 1 else 0 := by
  simp [drainCount, isDrainFor, List.filter]
  split <;> simp_all

theorem drainCount_cons (i : Nat) (t : Task) (rest : List Task) :
    drainCount i (t :: rest)
      = (if isDrainFor i t then 1 else 0) + drainCount i rest := by
  simp [drainCount, List.filter_cons]
  split <;> simp [Nat.add_comm]

theorem setD_oob (i : Nat) (f : Dobj → Dobj) (w : World) (h : w.heap.length ≤ i) :
    setD i f w = w := by
  simp [setD, hset_oob _ _ _ h]

@[simp] theorem getD_pushEv (e : Ev) (w : World) (i : Nat) : getD (pushEv e w) i = getD w i := rfl
@[simp] theorem getD_pushLogV (v : Val) (w : World) (i : Nat) :
    getD (pushLogV v w) i = getD w i := rfl
@[simp] theorem getD_withTasks (ts : List Task) (w : World) (i : Nat) :
    getD (withTasks ts w) i = getD w i := rfl
@[simp] theorem getD_pushUncaught (e : Val) (w : World) (i : Nat) :
    getD (pushUncaught e w) i = getD w i := rfl
@[simp] theorem getD_setArr (a : Nat) (l : List Val) (w : World) (i : Nat) :
    getD (setArr a l w) i = getD w i := rfl
@[simp] theorem getD_bumpCb (w : World) (i : Nat) : getD (bumpCb w) i = getD w i := rfl

theorem settleD_status_self (p : Nat) (st : Status) (v : Val) (w : World)
    (hp : p < w.heap.length) : (getD (settleD p st v w) p).status = st := by
  simp [settleD, getD_setD_self p _ w hp]

theorem settleD_status_ne (p : Nat) (st : Status) (v : Val) (w : World) (i : Nat)
    (h : p ≠ i) : (getD (settleD p st v w) i).status = (getD w i).status := by
  simp [settleD, getD_setD_ne p i _ w h]

theorem settleD_callbacks (p : Nat) (st : Status) (v : Val) (w : World) (i : Nat) :
    (getD (settleD p st v w) i).callbacks = (getD w i).callbacks := by
  by_cases hp : p < w.heap.length
  · by_cases hpi : p = i
    · subst hpi
      simp [settleD, getD_setD_self p _ w hp]
    · simp [settleD, getD_setD_ne p i _ w hpi]
  · rw [show settleD p st v w = w from setD_oob p _ w (le_of_not_lt hp)]

theorem pushCb_status (src : Nat) (c : CallbackPair) (w : World) (i : Nat) :
    (getD (pushCb src c w) i).status = (getD w i).status := by
  by_cases hp : src < w.heap.length
  · by_cases hpi : src = i
    · subst hpi
      simp [pushCb, getD_setD_self src _ w hp]
    · simp [pushCb, getD_setD_ne src i _ w hpi]
  · rw [show pushCb src c w = w from setD_oob src _ w (le_of_not_lt hp)]

theorem pushCb_value (src : Nat) (c : CallbackPair) (w : World) (i : Nat) :
    (getD (pushCb src c w) i).value = (getD w i).value := by
  by_cases hp : src < w.heap.length
  · by_cases hpi : src = i
    · subst hpi
      simp [pushCb, getD_setD_self src _ w hp]
    · simp [pushCb, getD_setD_ne src i _ w hpi]
  · rw [show pushCb src c w = w from setD_oob src _ w (le_of_not_lt hp)]

theorem pushCb_callbacks_ne (src : Nat) (c : CallbackPair) (w : World) (i : Nat)
    (h : src ≠ i) : (getD (pushCb src c w) i).callbacks = (getD w i).callbacks := by
  simp [pushCb, getD_setD_ne src i _ w h]

theorem pushCb_callbacks_self (src : Nat) (c : CallbackPair) (w : World)
    (hp : src < w.heap.length) :
    (getD (pushCb src c w) src).callbacks = (getD w src).callbacks ++ [c] := by
  simp [pushCb, getD_setD_self src _ w hp]

theorem pushCb_oob (src : Nat) (c : CallbackPair) (w : World)
    (h : w.heap.length ≤ src) : pushCb src c w = w :=
  setD_oob src _ w h

theorem status_getD_allocD (w : World) (i : Nat) :
    (getD (allocD w) i).status = (getD w i).status := by
  simp only [getD, allocD]
  exact status_hget_append_pending w.heap i

theorem callbacks_getD_allocD (w : World) (i : Nat) :
    (getD (allocD w) i).callbacks = (getD w i).callbacks := by
  simp only [getD, allocD]
  exact callbacks_hget_append_pending w.heap i

theorem cbIds_allocD (w : World) (i : Nat) :
    cbIds (getD (allocD w) i) = cbIds (getD w i) := by
  simp [cbIds, callbacks_getD_allocD]

/-- The invariant depends on the world only through the heap, the task
queue, the dispatched-waiter trace, and the counter. -/
theorem inv_of_parts (w w' : World) (hh : w'.heap = w.heap) (ht : w'.tasks = w.tasks)
    (he : winvIds w'.events = winvIds w.events) (hn : w'.nextCb = w.nextCb)
    (hI : Inv w) : Inv w' := by
  have hg : ∀ i, getD w' i = getD w i := fun i => by simp [getD, hh]
  refine ⟨?_, ?_, ?_, ?_, ?_, ?_, ?_, ?_, ?_, ?_⟩
  · intro i
    rw [hg i, hh]
    exact hI.cbok i
  · intro t htm
    rw [hh]
    exact hI.tok t (ht ▸ htm)
  · intro i
    rw [hg i, hn]
    exact hI.cbLt i
  · rw [he, hn]
    exact hI.evLt
  · intro i
    rw [hg i]
    exact hI.cbNdL i
  · intro i j hij cid
    rw [hg i, hg j]
    exact hI.cbDisj i j hij cid
  · rw [he]
    exact hI.evNd
  · intro i
    rw [hg i, ht]
    exact hI.pendNoDrain i
  · intro i
    rw [hg i, ht, he]
    exact hI.fresh i
  · intro i
    rw [ht]
    exact hI.oneDrain i

theorem ext_of_parts (w w' : World) (hh : w'.heap = w.heap) (ht : w'.tasks = w.tasks)
    (he : winvIds w'.events = winvIds w.events) (hn : w'.nextCb = w.nextCb) :
    Ext w w' := by
  have hg : ∀ i, getD w' i = getD w i := fun i => by simp [getD, hh]
  refine ⟨by rw [hh], by rw [hn], he, ?_, ?_, ?_⟩
  · intro j cid h
    rw [hg j] at h
    exact Or.inl h
  · intro j h
    rw [hg j] at h
    exact h
  · intro j h
    rw [ht] at h
    exact Or.inl h

theorem invExt_pushEvI (h : HandlerFn) (a : Val) (w : World) (hI : Inv w) :
    Inv (pushEv (.inv h a) w) ∧ Ext w (pushEv (.inv h a) w) := by
  have he : winvIds (pushEv (.inv h a) w).events = winvIds w.events := by
    simp [winvIds_append]
  exact ⟨inv_of_parts w _ rfl rfl he rfl hI, ext_of_parts w _ rfl rfl he rfl⟩

theorem invExt_pushLogV (v : Val) (w : World) (hI : Inv w) :
    Inv (pushLogV v w) ∧ Ext w (pushLogV v w) :=
  ⟨inv_of_parts w _ rfl rfl rfl rfl hI, ext_of_parts w _ rfl rfl rfl rfl⟩

theorem invExt_setArr (a : Nat) (l : List Val) (w : World) (hI : Inv w) :
    Inv (setArr a l w) ∧ Ext w (setArr a l w) :=
  ⟨inv_of_parts w _ rfl rfl rfl rfl hI, ext_of_parts w _ rfl rfl rfl rfl⟩

theorem cbIds_congr {d d' : Dobj} (h : d.callbacks = d'.callbacks) :
    cbIds d = cbIds d' := by
  simp [cbIds, h]

/-- Settlement of a live pending deferred preserves the invariant and is
an `Ext` step. -/
theorem invExt_settle (isF : Bool) (p : Nat) (v : Val) (w : World) (hI : Inv w)
    (hp : p < w.heap.length) :
    Inv (if isF then resolveM p v w else rejectM p v w) ∧
    Ext w (if isF then resolveM p v w else rejectM p v w) := by
  have core : ∀ (st : Status) (tk : Task), st ≠ .pending → isDrainFor p tk = true →
      (∀ i, isDrainFor i tk = true → i = p) →
      taskOk w.heap.length tk →
      ((getD w p).status = .pending →
        Inv (pushTask tk (settleD p st v w)) ∧ Ext w (pushTask tk (settleD p st v w))) := by
    intro st tk hstp hdf hdf2 htOk hpend
    set R := pushTask tk (settleD p st v w) with hR
    have hcb : ∀ i, (getD R i).callbacks = (getD w i).callbacks := fun i => by
      rw [hR, getD_pushTask]
      exact settleD_callbacks p st v w i
    have hcbIds : ∀ i, cbIds (getD R i) = cbIds (getD w i) := fun i =>
      cbIds_congr (hcb i)
    have hstat_ne : ∀ i, p ≠ i → (getD R i).status = (getD w i).status := fun i hne => by
      rw [hR, getD_pushTask]
      exact settleD_status_ne p st v w i hne
    have hstat_p : (getD R p).status = st := by
      rw [hR, getD_pushTask]
      exact settleD_status_self p st v w hp
    have htask : R.tasks = w.tasks ++ [tk] := by
      rw [hR]
      simp
    have hdc : ∀ i, drainCount i R.tasks
        = drainCount i w.tasks + (if isDrainFor i tk then 1 else 0) := fun i => by
      rw [htask, drainCount_append]
      simp [drainCount, List.filter]
      split <;> simp_all
    have hev : R.events = w.events := by rw [hR]; simp
    have hlen : R.heap.length = w.heap.length := by rw [hR]; simp
    have hncb : R.nextCb = w.nextCb := by rw [hR]; simp
    have hne_of_pend : ∀ i, (getD R i).status = .pending → p ≠ i := by
      intro i hi hpi
      subst hpi
      rw [hstat_p] at hi
      exact hstp hi
    constructor
    · refine ⟨?_, ?_, ?_, ?_, ?_, ?_, ?_, ?_, ?_, ?_⟩
      · intro i c hc
        rw [hcb i] at hc
        rw [hlen]
        exact hI.cbok i c hc
      · intro t ht
        rw [htask] at ht
        rw [hlen]
        rcases List.mem_append.mp ht with h1 | h1
        · exact hI.tok t h1
        · rw [List.mem_singleton.mp h1]
          exact htOk
      · intro i cid hcid
        rw [hcbIds i] at hcid
        rw [hncb]
        exact hI.cbLt i cid hcid
      · intro cid hcid
        rw [hev] at hcid
        rw [hncb]
        exact hI.evLt cid hcid
      · intro i
        rw [hcbIds i]
        exact hI.cbNdL i
      · intro i j hij cid hcid
        rw [hcbIds i] at hcid
        rw [hcbIds j]
        exact hI.cbDisj i j hij cid hcid
      · rw [hev]
        exact hI.evNd
      · intro i hi
        have hne := hne_of_pend i hi
        rw [hstat_ne i hne] at hi
        rw [hdc i]
        have : isDrainFor i tk = false := by
          cases hdrain : isDrainFor i tk
          · rfl
          · exact absurd (hdf2 i hdrain) (fun he => hne he.symm)
        rw [this]
        simpa using hI.pendNoDrain i hi
      · intro i hcond cid hcid
        rw [hcbIds i] at hcid
        rw [hev]
        by_cases hip : p = i
        · subst hip
          exact hI.fresh p (Or.inl hpend) cid hcid
        · refine hI.fresh i ?_ cid hcid
          rcases hcond with h1 | h1
          · exact Or.inl (by rw [← hstat_ne i hip]; exact h1)
          · rw [hdc i] at h1
            have : isDrainFor i tk = false := by
              cases hdrain : isDrainFor i tk
              · rfl
              · exact absurd (hdf2 i hdrain) (fun he => hip he.symm)
            rw [this] at h1
            simp at h1
            exact Or.inr h1
      · intro i
        rw [hdc i]
        by_cases hip : i = p
        · subst hip
          have h0 := hI.pendNoDrain i hpend
          rw [h0, hdf]
          simp
        · have : isDrainFor i tk = false := by
            cases hdrain : isDrainFor i tk
            · rfl
            · exact absurd (hdf2 i hdrain) hip
          rw [this]
          simpa using hI.oneDrain i
    · refine ⟨by rw [hlen], by rw [hncb], by rw [hev], ?_, ?_, ?_⟩
      · intro j cid hcid
        rw [hcbIds j] at hcid
        exact Or.inl hcid
      · intro j hj
        have hne := hne_of_pend j hj
        rw [← hstat_ne j hne]
        exact hj
      · intro j hj
        rw [hdc j] at hj
        by_cases hip : isDrainFor j tk = true
        · have := hdf2 j hip
          subst this
          exact Or.inr hpend
        · rw [Bool.eq_false_iff.mpr hip] at hj
          simp at hj
          exact Or.inl hj
  cases isF
  · show Inv (rejectM p v w) ∧ Ext w (rejectM p v w)
    unfold rejectM
    split
    · rename_i hpend
      exact core .rejected (.drainR p v) (by simp) (by simp [isDrainFor])
        (by intro i h; exact ((Nat.beq_eq_true_eq p i).mp (by simpa [isDrainFor] using h)).symm)
        (by simpa [taskOk] using hp) hpend
    · exact ⟨hI, Ext.sameW w⟩
  · show Inv (resolveM p v w) ∧ Ext w (resolveM p v w)
    unfold resolveM
    split
    · rename_i hpend
      exact core .fulfilled (.drainF p v) (by simp) (by simp [isDrainFor])
        (by intro i h; exact ((Nat.beq_eq_true_eq p i).mp (by simpa [isDrainFor] using h)).symm)
        (by simpa [taskOk] using hp) hpend
    · exact ⟨hI, Ext.sameW w⟩

theorem invExt_allocD (w : World) (hI : Inv w) : Inv (allocD w) ∧ Ext w (allocD w) := by
  have hst : ∀ i, (getD (allocD w) i).status = (getD w i).status := status_getD_allocD w
  have hcb : ∀ i, (getD (allocD w) i).callbacks = (getD w i).callbacks :=
    callbacks_getD_allocD w
  have hids : ∀ i, cbIds (getD (allocD w) i) = cbIds (getD w i) := cbIds_allocD w
  have hlen : (allocD w).heap.length = w.heap.length + 1 := by simp
  constructor
  · refine ⟨?_, ?_, ?_, ?_, ?_, ?_, ?_, ?_, ?_, ?_⟩
    · intro i c hc
      rw [hcb i] at hc
      rw [hlen]
      exact cbOk_mono (Nat.le_succ _) (hI.cbok i c hc)
    · intro t ht
      rw [hlen]
      exact taskOk_mono (Nat.le_succ _) (hI.tok t ht)
    · intro i cid hcid
      rw [hids i] at hcid
      exact hI.cbLt i cid hcid
    · exact hI.evLt
    · intro i
      rw [hids i]
      exact hI.cbNdL i
    · intro i j hij cid hcid
      rw [hids i] at hcid
      rw [hids j]
      exact hI.cbDisj i j hij cid hcid
    · exact hI.evNd
    · intro i hi
      rw [hst i] at hi
      exact hI.pendNoDrain i hi
    · intro i hcond cid hcid
      rw [hids i] at hcid
      refine hI.fresh i ?_ cid hcid
      rcases hcond with h1 | h1
      · exact Or.inl (by rw [← hst i]; exact h1)
      · exact Or.inr h1
    · exact hI.oneDrain
  · refine ⟨by omega, le_refl _, Eq.refl _, ?_, ?_, ?_⟩
    · intro j cid hcid
      rw [hids j] at hcid
      exact Or.inl hcid
    · intro j hj
      rw [← hst j]
      exact hj
    · intro j hj
      exact Or.inl hj

theorem invExt_bumpCb (w : World) (hI : Inv w) : Inv (bumpCb w) ∧ Ext w (bumpCb w) := by
  constructor
  · refine ⟨hI.cbok, hI.tok, ?_, ?_, hI.cbNdL, hI.cbDisj, hI.evNd, hI.pendNoDrain,
      hI.fresh, hI.oneDrain⟩
    · intro i cid hcid
      exact lt_of_lt_of_le (hI.cbLt i cid hcid) (by simp)
    · intro cid hcid
      exact lt_of_lt_of_le (hI.evLt cid hcid) (by simp)
  · exact ⟨le_refl _, by simp, Eq.refl _, fun _ _ h => Or.inl h, fun _ h => h,
      fun _ h => Or.inl h⟩

theorem invExt_pushTaskH (h : HandlerFn) (s q : Nat) (w : World) (hI : Inv w)
    (hok : hOk w.heap.length h) (hq : q < w.heap.length) :
    Inv (pushTask (.hTask h s q) w) ∧ Ext w (pushTask (.hTask h s q) w) := by
  have hdc : ∀ i, drainCount i (pushTask (.hTask h s q) w).tasks
      = drainCount i w.tasks := by
    intro i
    rw [pushTask_tasks, drainCount_append, drainCount_hTask]
    omega
  constructor
  · refine ⟨hI.cbok, ?_, hI.cbLt, hI.evLt, hI.cbNdL, hI.cbDisj, hI.evNd, ?_, ?_, ?_⟩
    · intro t ht
      rw [pushTask_tasks] at ht
      rcases List.mem_append.mp ht with h1 | h1
      · exact hI.tok t h1
      · rw [List.mem_singleton.mp h1]
        exact ⟨hok, hq⟩
    · intro i hi
      rw [hdc i]
      exact hI.pendNoDrain i hi
    · intro i hcond cid hcid
      refine hI.fresh i ?_ cid hcid
      rcases hcond with h1 | h1
      · exact Or.inl h1
      · rw [hdc i] at h1
        exact Or.inr h1
    · intro i
      rw [hdc i]
      exact hI.oneDrain i
  · refine ⟨le_refl _, le_refl _, Eq.refl _, fun _ _ h => Or.inl h, fun _ h => h, ?_⟩
    intro j hj
    rw [hdc j] at hj
    exact Or.inl hj

theorem invExt_pushCbFresh (src : Nat) (c : CallbackPair) (w : World) (hI : Inv w)
    (hid : c.cbId < w.nextCb)
    (hg : ∀ j, c.cbId ∉ cbIds (getD w j))
    (hev : c.cbId ∉ winvIds w.events)
    (hok : cbOk w.heap.length c) :
    Inv (pushCb src c w) ∧
    (∀ j cid, cid ∈ cbIds (getD (pushCb src c w) j) →
      cid ∈ cbIds (getD w j) ∨ cid = c.cbId) := by
  by_cases hp : src < w.heap.length
  case neg =>
    rw [pushCb_oob src c w (le_of_not_lt hp)]
    exact ⟨hI, fun _ _ h => Or.inl h⟩
  case pos =>
  have hself : cbIds (getD (pushCb src c w) src) = cbIds (getD w src) ++ [c.cbId] := by
    simp [cbIds, pushCb_callbacks_self src c w hp]
  have hne : ∀ i, src ≠ i →
      cbIds (getD (pushCb src c w) i) = cbIds (getD w i) := by
    intro i hi
    simp [cbIds, pushCb_callbacks_ne src c w i hi]
  have hmem : ∀ j cid, cid ∈ cbIds (getD (pushCb src c w) j) →
      cid ∈ cbIds (getD w j) ∨ cid = c.cbId := by
    intro j cid hcid
    by_cases hj : src = j
    · subst hj
      rw [hself] at hcid
      rcases List.mem_append.mp hcid with h1 | h1
      · exact Or.inl h1
      · exact Or.inr (List.mem_singleton.mp h1)
    · rw [hne j hj] at hcid
      exact Or.inl hcid
  have hst : ∀ i, (getD (pushCb src c w) i).status = (getD w i).status :=
    pushCb_status src c w
  refine ⟨⟨?_, ?_, ?_, ?_, ?_, ?_, ?_, ?_, ?_, ?_⟩, hmem⟩
  · intro i cc hcc
    rw [show (pushCb src c w).heap.length = w.heap.length from by simp]
    by_cases hj : src = i
    · subst hj
      rw [pushCb_callbacks_self src c w hp] at hcc
      rcases List.mem_append.mp hcc with h1 | h1
      · exact hI.cbok src cc h1
      · rw [List.mem_singleton.mp h1]
        exact hok
    · rw [pushCb_callbacks_ne src c w i hj] at hcc
      exact hI.cbok i cc hcc
  · intro t ht
    rw [show (pushCb src c w).heap.length = w.heap.length from by simp]
    exact hI.tok t ht
  · intro i cid hcid
    rcases hmem i cid hcid with h1 | h1
    · exact hI.cbLt i cid h1
    · rw [h1]
      exact hid
  · exact hI.evLt
  · intro i
    by_cases hj : src = i
    · subst hj
      rw [hself, nodup_snoc]
      exact ⟨hI.cbNdL src, hg src⟩
    · rw [hne i hj]
      exact hI.cbNdL i
  · intro i j hij cid hcid
    rcases hmem i cid hcid with h1 | h1
    · intro hcj
      rcases hmem j cid hcj with h2 | h2
      · exact hI.cbDisj i j hij cid h1 h2
      · rw [h2] at h1
        exact hg i h1
    · by_cases hi : src = i
      · have hj : src ≠ j := fun he => hij (hi.symm.trans he)
        intro hcj
        rw [hne j hj] at hcj
        rw [h1] at hcj
        exact hg j hcj
      · rw [hne i hi] at hcid
        rw [h1] at hcid
        exact absurd hcid (hg i)
  · exact hI.evNd
  · intro i hi
    rw [hst i] at hi
    exact hI.pendNoDrain i hi
  · intro i hcond cid hcid
    have hcond' : (getD w i).status = .pending ∨ drainCount i w.tasks ≠ 0 := by
      rcases hcond with h1 | h1
      · exact Or.inl (by rw [← hst i]; exact h1)
      · exact Or.inr h1
    rcases hmem i cid hcid with h1 | h1
    · exact hI.fresh i hcond' cid h1
    · rw [h1]
      exact hev
  · exact hI.oneDrain

theorem invExt_thenCall (f r : Option HandlerFn) (src : Nat) (w : World) (hI : Inv w)
    (hf : hOk (w.heap.length + 1) (f.getD (.defaultH src)))
    (hr : hOk (w.heap.length + 1) (r.getD (.defaultH src))) :
    Inv (thenCall f r src w).2 ∧ Ext w (thenCall f r src w).2 := by
  obtain ⟨hIa, hEa⟩ := invExt_allocD w hI
  unfold thenCall
  dsimp only
  rcases hs : (getD (allocD w) src).status with _ | _ | _
  · -- pending: register a waiter with a fresh identifier
    obtain ⟨hIb, hEb⟩ := invExt_bumpCb (allocD w) hIa
    have hidsb : ∀ j, cbIds (getD (bumpCb (allocD w)) j) = cbIds (getD w j) := by
      intro j
      rw [getD_bumpCb]
      exact cbIds_allocD w j
    have hstb : ∀ j, (getD (bumpCb (allocD w)) j).status = (getD w j).status := by
      intro j
      rw [getD_bumpCb]
      exact status_getD_allocD w j
    obtain ⟨hIc, hmemc⟩ := invExt_pushCbFresh src
      ⟨w.nextCb, f.getD (.defaultH src), r.getD (.defaultH src), w.heap.length⟩
      (bumpCb (allocD w)) hIb
      (by simp)
      (by
        intro j hmm
        rw [hidsb j] at hmm
        exact absurd (hI.cbLt j _ hmm) (lt_irrefl _))
      (by
        intro hmm
        have : winvIds (bumpCb (allocD w)).events = winvIds w.events := rfl
        rw [this] at hmm
        exact absurd (hI.evLt _ hmm) (lt_irrefl _))
      (by
        refine ⟨?_, ?_, ?_⟩ <;> simp only [bumpCb_heap, allocD_heap_length]
        · exact hf
        · exact hr
        · omega)
    refine ⟨hIc, ?_⟩
    refine ⟨?_, ?_, ?_, ?_, ?_, ?_⟩
    · simp
    · simp
    · rfl
    · intro j cid hcid
      rcases hmemc j cid hcid with h1 | h1
      · rw [hidsb j] at h1
        exact Or.inl h1
      · rw [h1]
        exact Or.inr (le_refl _)
    · intro j hj
      rw [pushCb_status, hstb j] at hj
      exact hj
    · intro j hj
      exact Or.inl hj
  · -- fulfilled: schedule the fulfilled handler
    obtain ⟨hIc, hEc⟩ := invExt_pushTaskH (f.getD (.defaultH src)) src w.heap.length
      (allocD w) hIa
      (by rw [allocD_heap_length]; exact hf)
      (by simp)
    exact ⟨hIc, hEa.trans hEc⟩
  · -- rejected: schedule the rejected handler
    obtain ⟨hIc, hEc⟩ := invExt_pushTaskH (r.getD (.defaultH src)) src w.heap.length
      (allocD w) hIa
      (by rw [allocD_heap_length]; exact hr)
      (by simp)
    exact ⟨hIc, hEa.trans hEc⟩

theorem invExt_resolveM (p : Nat) (v : Val) (w : World) (hI : Inv w)
    (hp : p < w.heap.length) : Inv (resolveM p v w) ∧ Ext w (resolveM p v w) := by
  simpa using invExt_settle true p v w hI hp

theorem invExt_rejectM (p : Nat) (v : Val) (w : World) (hI : Inv w)
    (hp : p < w.heap.length) : Inv (rejectM p v w) ∧ Ext w (rejectM p v w) := by
  simpa using invExt_settle false p v w hI hp

theorem invExt_parseHD (prom : Nat) (res : Val) (w : World) (hI : Inv w)
    (hprom : prom < w.heap.length) :
    Inv (parseHD prom res w).1 ∧ Ext w (parseHD prom res w).1 := by
  unfold parseHD
  split
  · exact ⟨hI, Ext.sameW w⟩
  · cases res with
    | ref r =>
        dsimp only
        exact invExt_thenCall (some (.capResW prom)) (some (.capRejW prom)) r w hI
          (by simpa [hOk] using Nat.lt_succ_of_lt hprom)
          (by simpa [hOk] using Nat.lt_succ_of_lt hprom)
    | null => exact invExt_resolveM prom _ w hI hprom
    | undef => exact invExt_resolveM prom _ w hI hprom
    | num n => exact invExt_resolveM prom _ w hI hprom
    | str s => exact invExt_resolveM prom _ w hI hprom
    | vlist vs => exact invExt_resolveM prom _ w hI hprom
    | err m => exact invExt_resolveM prom _ w hI hprom

theorem invExt_sres (v : Val) (w : World) (hI : Inv w) :
    Inv (resolveSHD v w).2 ∧ Ext w (resolveSHD v w).2 := by
  obtain ⟨hIa, hEa⟩ := invExt_allocD w hI
  unfold resolveSHD newDeferred
  cases v with
  | ref d =>
      dsimp only
      obtain ⟨hIc, hEc⟩ := invExt_thenCall (some (.capResW w.heap.length))
        (some (.capRejW w.heap.length)) d (allocD w) hIa
        (by simp [hOk]; omega)
        (by simp [hOk]; omega)
      exact ⟨hIc, hEa.trans hEc⟩
  | null =>
      dsimp only
      obtain ⟨hIc, hEc⟩ := invExt_resolveM w.heap.length _ (allocD w) hIa (by simp)
      exact ⟨hIc, hEa.trans hEc⟩
  | undef =>
      dsimp only
      obtain ⟨hIc, hEc⟩ := invExt_resolveM w.heap.length _ (allocD w) hIa (by simp)
      exact ⟨hIc, hEa.trans hEc⟩
  | num n =>
      dsimp only
      obtain ⟨hIc, hEc⟩ := invExt_resolveM w.heap.length _ (allocD w) hIa (by simp)
      exact ⟨hIc, hEa.trans hEc⟩
  | str s =>
      dsimp only
      obtain ⟨hIc, hEc⟩ := invExt_resolveM w.heap.length _ (allocD w) hIa (by simp)
      exact ⟨hIc, hEa.trans hEc⟩
  | vlist vs =>
      dsimp only
      obtain ⟨hIc, hEc⟩ := invExt_resolveM w.heap.length _ (allocD w) hIa (by simp)
      exact ⟨hIc, hEa.trans hEc⟩
  | err m =>
      dsimp only
      obtain ⟨hIc, hEc⟩ := invExt_resolveM w.heap.length _ (allocD w) hIa (by simp)
      exact ⟨hIc, hEa.trans hEc⟩

theorem invExt_rejectS (v : Val) (w : World) (hI : Inv w) :
    Inv (rejectS v w).2 ∧ Ext w (rejectS v w).2 := by
  obtain ⟨hIa, hEa⟩ := invExt_allocD w hI
  unfold rejectS newDeferred
  dsimp only
  obtain ⟨hIc, hEc⟩ := invExt_rejectM w.heap.length v (allocD w) hIa (by simp)
  exact ⟨hIc, hEa.trans hEc⟩

theorem invExt_evalHExpr (e : HExpr) (a : Val) (w : World) (hI : Inv w) :
    Inv (evalHExpr semHD e a w).1 ∧ Ext w (evalHExpr semHD e a w).1 := by
  cases e with
  | cst v => exact ⟨hI, Ext.sameW w⟩
  | ident => exact ⟨hI, Ext.sameW w⟩
  | throwV v => exact ⟨hI, Ext.sameW w⟩
  | retRef i => exact ⟨hI, Ext.sameW w⟩
  | pushLog => exact invExt_pushLogV a w hI
  | resolveAdd n =>
      dsimp only [evalHExpr, semHD]
      exact invExt_sres (jsAdd a n) w hI

theorem invExt_invokeH (h : HandlerFn) (a : Val) (w : World) (hI : Inv w)
    (hok : hOk w.heap.length h) :
    Inv (invokeH semHD h a w).1 ∧ Ext w (invokeH semHD h a w).1 := by
  obtain ⟨hI0, hE0⟩ := invExt_pushEvI h a w hI
  have hlen0 : (pushEv (.inv h a) w).heap.length = w.heap.length := by simp
  cases h with
  | user e =>
      obtain ⟨hI1, hE1⟩ := invExt_evalHExpr e a (pushEv (.inv (.user e) a) w) hI0
      exact ⟨hI1, hE0.trans hE1⟩
  | defaultH src => exact ⟨hI0, hE0⟩
  | capRes p =>
      obtain ⟨hI1, hE1⟩ := invExt_resolveM p a (pushEv (.inv (.capRes p) a) w) hI0
        (by rw [hlen0]; exact hok)
      exact ⟨hI1, hE0.trans hE1⟩
  | capResW p =>
      obtain ⟨hI1, hE1⟩ := invExt_resolveM p a (pushEv (.inv (.capResW p) a) w) hI0
        (by rw [hlen0]; exact hok)
      exact ⟨hI1, hE0.trans hE1⟩
  | capRej p =>
      obtain ⟨hI1, hE1⟩ := invExt_rejectM p a (pushEv (.inv (.capRej p) a) w) hI0
        (by rw [hlen0]; exact hok)
      exact ⟨hI1, hE0.trans hE1⟩
  | capRejW p =>
      obtain ⟨hI1, hE1⟩ := invExt_rejectM p a (pushEv (.inv (.capRejW p) a) w) hI0
        (by rw [hlen0]; exact hok)
      exact ⟨hI1, hE0.trans hE1⟩
  | allF arr n p =>
      dsimp only [invokeH]
      obtain ⟨hI1, hE1⟩ := invExt_setArr arr
        ((pushEv (.inv (.allF arr n p) a) w).arrays.getD arr [] ++ [a])
        (pushEv (.inv (.allF arr n p) a) w) hI0
      split
      · obtain ⟨hI2, hE2⟩ := invExt_resolveM p _
          (setArr arr ((pushEv (.inv (.allF arr n p) a) w).arrays.getD arr [] ++ [a])
            (pushEv (.inv (.allF arr n p) a) w)) hI1
          (by simpa using hok)
        exact ⟨hI2, (hE0.trans hE1).trans hE2⟩
      · exact ⟨hI1, hE0.trans hE1⟩

/-- Dispatching a list of waiters whose identifiers are fresh, distinct
and live preserves the invariant: each waiter's `winv` record is new, and
the handler/parse code run in between never dispatches a waiter itself. -/
theorem inv_drainList (b : Bool) (cbs : List CallbackPair) (v : Val) (w : World)
    (hI : Inv w)
    (h2 : ∀ c ∈ cbs, c.cbId ∉ winvIds w.events)
    (h3 : (cbs.map (·.cbId)).Nodup)
    (h4 : ∀ c ∈ cbs, cbOk w.heap.length c)
    (h5 : ∀ c ∈ cbs, ∀ j, ((getD w j).status = .pending ∨ drainCount j w.tasks ≠ 0) →
        c.cbId ∉ cbIds (getD w j))
    (h6 : ∀ c ∈ cbs, c.cbId < w.nextCb) :
    Inv (drainList semHD b cbs v w).1 := by
  induction cbs generalizing w with
  | nil => exact hI
  | cons c rest ih =>
      have hmemc : c ∈ c :: rest := List.mem_cons_self c rest
      have hE1 : winvIds (pushEv (.winv c.cbId) w).events
          = winvIds w.events ++ [c.cbId] := by
        simp [winvIds_append]
      have hI1 : Inv (pushEv (.winv c.cbId) w) := by
        refine ⟨hI.cbok, hI.tok, hI.cbLt, ?_, hI.cbNdL, hI.cbDisj, ?_,
          hI.pendNoDrain, ?_, hI.oneDrain⟩
        · intro cid hcid
          rw [hE1] at hcid
          rcases List.mem_append.mp hcid with ha | ha
          · exact hI.evLt cid ha
          · rw [List.mem_singleton.mp ha]
            exact h6 c hmemc
        · rw [hE1, nodup_snoc]
          exact ⟨hI.evNd, h2 c hmemc⟩
        · intro i hcond cid hcid
          rw [hE1]
          intro hmm
          rcases List.mem_append.mp hmm with ha | ha
          · exact hI.fresh i hcond cid hcid ha
          · rw [List.mem_singleton.mp ha] at hcid
            exact h5 c hmemc i hcond hcid
      have hokh : hOk w.heap.length (if b then c.onF else c.onR) := by
        cases b
        · exact (h4 c hmemc).2.1
        · exact (h4 c hmemc).1
      obtain ⟨hI2', hE2'⟩ := invExt_invokeH (if b then c.onF else c.onR) v
        (pushEv (.winv c.cbId) w) hI1 hokh
      rcases hiv : invokeH semHD (if b then c.onF else c.onR) v
        (pushEv (.winv c.cbId) w) with ⟨w2, res⟩
      rw [hiv] at hI2' hE2'
      cases res with
      | error e =>
          have hrc : runCb semHD b c v w = (w2, some e) := by
            unfold runCb
            dsimp only
            rw [hiv]
          have hd : drainList semHD b (c :: rest) v w = (w2, some e) := by
            simp [drainList, hrc]
          rw [hd]
          exact hI2'
      | ok result =>
          have hprom2 : c.prom < w2.heap.length := by
            have h1 : c.prom < w.heap.length := (h4 c hmemc).2.2
            have h2l : (pushEv (.winv c.cbId) w).heap.length ≤ w2.heap.length :=
              hE2'.len
            simpa using lt_of_lt_of_le h1 (by simpa using h2l)
          obtain ⟨hI3', hE3'⟩ := invExt_parseHD c.prom result w2 hI2' hprom2
          rcases hp3 : parseHD c.prom result w2 with ⟨w3, o⟩
          rw [hp3] at hI3' hE3'
          have hrc : runCb semHD b c v w = (w3, o) := by
            unfold runCb
            dsimp only
            rw [hiv]
            exact hp3
          have hE23 : Ext (pushEv (.winv c.cbId) w) w3 := hE2'.trans hE3'
          cases o with
          | some e =>
              have hd : drainList semHD b (c :: rest) v w = (w3, some e) := by
                simp [drainList, hrc]
              rw [hd]
              exact hI3'
          | none =>
              have hd : drainList semHD b (c :: rest) v w
                  = drainList semHD b rest v w3 := by
                simp [drainList, hrc]
              rw [hd]
              have hw3ev : winvIds w3.events = winvIds w.events ++ [c.cbId] := by
                rw [hE23.winv, hE1]
              have hnd := h3
              rw [List.map_cons, List.nodup_cons] at hnd
              refine ih w3 hI3' ?_ hnd.2 ?_ ?_ ?_
              · intro c' hc'
                rw [hw3ev]
                intro hmm
                rcases List.mem_append.mp hmm with ha | ha
                · exact h2 c' (List.mem_cons_of_mem c hc') ha
                · have : c'.cbId = c.cbId := List.mem_singleton.mp ha
                  exact hnd.1 (this ▸ List.mem_map_of_mem (·.cbId) hc')
              · intro c' hc'
                have := h4 c' (List.mem_cons_of_mem c hc')
                refine cbOk_mono ?_ this
                have := hE23.len
                simpa using this
              · intro c' hc' j hcond
                have hcondw : (getD w j).status = .pending ∨ drainCount j w.tasks ≠ 0 := by
                  rcases hcond with h1 | h1
                  · exact Or.inl (hE23.pend j h1)
                  · rcases hE23.drains j h1 with ha | ha
                    · exact Or.inr ha
                    · exact Or.inl ha
                have hnot := h5 c' (List.mem_cons_of_mem c hc') j hcondw
                intro hmm
                rcases hE23.grow j c'.cbId hmm with ha | ha
                · exact hnot ha
                · have := h6 c' (List.mem_cons_of_mem c hc')
                  simp at ha
                  omega
              · intro c' hc'
                have h1 := h6 c' (List.mem_cons_of_mem c hc')
                have h2n := hE23.ncb
                simp at h2n
                omega

theorem inv_runHTask (h : HandlerFn) (src prom : Nat) (w : World) (hI : Inv w)
    (hok : hOk w.heap.length h) (hprom : prom < w.heap.length) :
    Inv (runHTask semHD h src prom w).1 := by
  unfold runHTask
  obtain ⟨hI1, hE1⟩ := invExt_invokeH h (getD w src).value w hI hok
  rcases hiv : invokeH semHD h (getD w src).value w with ⟨w1, res⟩
  rw [hiv] at hI1 hE1
  cases res with
  | error e => exact hI1
  | ok result =>
      exact (invExt_parseHD prom result w1 hI1 (lt_of_lt_of_le hprom hE1.len)).1

theorem inv_pushUncaught (e : Val) (w : World) (hI : Inv w) : Inv (pushUncaught e w) :=
  inv_of_parts w _ rfl rfl rfl rfl hI

theorem inv_step (w : World) (hI : Inv w) : Inv (step semHD w) := by
  rcases ht : w.tasks with _ | ⟨t, rest⟩
  · unfold step
    rw [ht]
    exact hI
  · have hcntfull : ∀ i, drainCount i w.tasks
        = (if isDrainFor i t then 1 else 0) + drainCount i rest := by
      intro i
      rw [ht]
      exact drainCount_cons i t rest
    have hIp : Inv (withTasks rest w) := by
      refine ⟨hI.cbok, ?_, hI.cbLt, hI.evLt, hI.cbNdL, hI.cbDisj, hI.evNd, ?_, ?_, ?_⟩
      · intro t' ht'
        refine hI.tok t' ?_
        rw [ht]
        exact List.mem_cons_of_mem t ht'
      · intro i hi
        have := hI.pendNoDrain i hi
        rw [hcntfull i] at this
        simpa using Nat.eq_zero_of_add_eq_zero_left this
      · intro i hcond cid hcid
        refine hI.fresh i ?_ cid hcid
        rcases hcond with h1 | h1
        · exact Or.inl h1
        · refine Or.inr ?_
          rw [hcntfull i]
          intro hz
          exact h1 (Nat.eq_zero_of_add_eq_zero_left hz)
      · intro i
        have := hI.oneDrain i
        rw [hcntfull i] at this
        simp only [withTasks_tasks]
        omega
    have hdrain_core : ∀ (i : Nat) (v : Val) (b : Bool), t = (if b then .drainF i v else .drainR i v) →
        Inv (drainList semHD b (getD (withTasks rest w) i).callbacks v (withTasks rest w)).1 := by
      intro i v b htb
      have htin : t ∈ w.tasks := by
        rw [ht]
        exact List.mem_cons_self t rest
      have hdf : isDrainFor i t = true := by
        rw [htb]
        cases b <;> simp [isDrainFor]
      have hfullpos : drainCount i w.tasks ≠ 0 := by
        rw [hcntfull i, hdf]
        simp
      have hipend : (getD w i).status ≠ .pending := by
        intro hp
        exact hfullpos (hI.pendNoDrain i hp)
      have hrest0 : drainCount i rest = 0 := by
        have := hI.oneDrain i
        rw [hcntfull i, hdf] at this
        simp at this
        omega
      refine inv_drainList b (getD (withTasks rest w) i).callbacks v (withTasks rest w)
        hIp ?_ ?_ ?_ ?_ ?_
      · intro c hc
        refine hI.fresh i (Or.inr hfullpos) c.cbId ?_
        exact List.mem_map_of_mem (·.cbId) hc
      · exact hI.cbNdL i
      · intro c hc
        exact hI.cbok i c hc
      · intro c hc j hcond
        have hcid : c.cbId ∈ cbIds (getD w i) := List.mem_map_of_mem (·.cbId) hc
        have hij : i ≠ j := by
          rcases hcond with h1 | h1
          · intro he
            rw [← he] at h1
            exact hipend h1
          · intro he
            rw [← he] at h1
            exact h1 hrest0
        exact hI.cbDisj i j hij c.cbId hcid
      · intro c hc
        exact hI.cbLt i c.cbId (List.mem_map_of_mem (·.cbId) hc)
    unfold step
    rw [ht]
    dsimp only
    rcases hrt : runTask semHD t (withTasks rest w) with ⟨w1, o⟩
    have hIw1 : Inv w1 := by
      cases t with
      | drainF i v =>
          have := hdrain_core i v true rfl
          rw [show runTask semHD (.drainF i v) (withTasks rest w)
              = drainList semHD true (getD (withTasks rest w) i).callbacks v
                  (withTasks rest w) from rfl] at hrt
          rw [hrt] at this
          exact this
      | drainR i v =>
          have := hdrain_core i v false rfl
          rw [show runTask semHD (.drainR i v) (withTasks rest w)
              = drainList semHD false (getD (withTasks rest w) i).callbacks v
                  (withTasks rest w) from rfl] at hrt
          rw [hrt] at this
          exact this
      | hTask h src prom =>
          have htok := hI.tok _ (by rw [ht]; exact List.mem_cons_self _ rest)
          have := inv_runHTask h src prom (withTasks rest w) hIp htok.1 htok.2
          rw [show runTask semHD (.hTask h src prom) (withTasks rest w)
              = runHTask semHD h src prom (withTasks rest w) from rfl] at hrt
          rw [hrt] at this
          exact this
    cases o with
    | none => exact hIw1
    | some e => exact inv_pushUncaught e w1 hIw1

theorem hOk_userOpt (o : Option HExpr) (n : Nat) (src : Nat) :
    hOk n ((o.map HandlerFn.user).getD (.defaultH src)) := by
  cases o <;> simp [hOk]

theorem inv_foldThen (h1 h2 : HandlerFn) (ids : List Nat) (w0 : World) (hI0 : Inv w0)
    (hok1 : hOk w0.heap.length h1) (hok2 : hOk w0.heap.length h2) :
    Inv (ids.foldl (fun wacc q => (thenCall (some h1) (some h2) q wacc).2) w0) := by
  induction ids generalizing w0 with
  | nil => exact hI0
  | cons q restq ih =>
      simp only [List.foldl_cons]
      obtain ⟨hI1, hE1⟩ := invExt_thenCall (some h1) (some h2) q w0 hI0
        (hOk_mono (Nat.le_succ _) hok1) (hOk_mono (Nat.le_succ _) hok2)
      exact ih _ hI1 (hOk_mono hE1.len hok1) (hOk_mono hE1.len hok2)

theorem inv_runCmd (w : World) (c : Cmd) (hI : Inv w) : Inv (runCmd semHD w c) := by
  cases c with
  | newD => exact (invExt_allocD w hI).1
  | resolveStat v => exact (invExt_sres v w hI).1
  | rejectStat v => exact (invExt_rejectS v w hI).1
  | allStat ids =>
      show Inv (if ids.all (fun i => i < w.heap.length) then (allCall ids w).2 else w)
      split
      · unfold allCall newDeferred
        dsimp only
        have hIa := (invExt_allocD w hI).1
        have hIb : Inv (pushArr (allocD w)) :=
          inv_of_parts (allocD w) _ rfl rfl rfl rfl hIa
        refine inv_foldThen _ _ ids (pushArr (allocD w)) hIb ?_ ?_ <;>
          simp [hOk]
      · exact hI
  | raceStat ids =>
      show Inv (if ids.all (fun i => i < w.heap.length) then (raceCall ids w).2 else w)
      split
      · unfold raceCall newDeferred
        dsimp only
        have hIa := (invExt_allocD w hI).1
        refine inv_foldThen _ _ ids (allocD w) hIa ?_ ?_ <;> simp [hOk]
      · exact hI
  | thenC src f r =>
      show Inv (if src < w.heap.length
          then (thenCall (f.map .user) (r.map .user) src w).2 else w)
      split
      · exact (invExt_thenCall (f.map .user) (r.map .user) src w hI
          (hOk_userOpt f _ src) (hOk_userOpt r _ src)).1
      · exact hI
  | settleF p v =>
      show Inv (if p < w.heap.length then resolveM p v w else w)
      split
      · rename_i hp
        exact (invExt_resolveM p v w hI hp).1
      · exact hI
  | settleR p v =>
      show Inv (if p < w.heap.length then rejectM p v w else w)
      split
      · rename_i hp
        exact (invExt_rejectM p v w hI hp).1
      · exact hI
  | turn => exact inv_step w hI

theorem inv_runProg (cmds : List Cmd) (w : World) (hI : Inv w) :
    Inv (runProg semHD cmds w) := by
  induction cmds generalizing w with
  | nil => exact hI
  | cons c cs ih =>
      simp only [runProg]
      exact ih _ (inv_runCmd w c hI)

theorem inv_empty : Inv World.empty := by
  have hg : ∀ i, getD World.empty i = default := fun i => rfl
  have hdc : (default : Dobj).callbacks = [] := rfl
  refine ⟨?_, ?_, ?_, ?_, ?_, ?_, ?_, ?_, ?_, ?_⟩
  · intro i c hc
    rw [hg i, hdc] at hc
    exact absurd hc (List.not_mem_nil c)
  · intro t ht
    exact absurd ht (List.not_mem_nil t)
  · intro i cid hcid
    rw [hg i] at hcid
    simp [cbIds, hdc] at hcid
  · intro cid hcid
    simp [winvIds, World.empty] at hcid
  · intro i
    rw [hg i]
    simp [cbIds, hdc]
  · intro i j hij cid hcid
    rw [hg i] at hcid
    simp [cbIds, hdc] at hcid
  · simp [winvIds, World.empty]
  · intro i hcond
    rfl
  · intro i hcond cid hcid
    rw [hg i] at hcid
    simp [cbIds, hdc] at hcid
  · intro i
    simp [drainCount, World.empty]

/-- **C9** (amended).  The waiter discipline that actually holds:
(1) `then` on a terminal deferred leaves its waiters list unchanged
(append only while pending); (2) `then` on a pending deferred appends
exactly one waiter pair; (3) settlement calls on a terminal deferred are
complete no-ops (so no second drain is ever scheduled); (4) the first
settlement schedules exactly one drain task; (5) the drain dispatches the
registered waiters in insertion order (the trace grows by exactly the
per-waiter records in list order); (6) over any program on the public
surface, no waiter is ever dispatched twice (the `winv` trace is
duplicate-free).  The list is, however, *not* cleared — that part of the
claim is refuted by `waiters_not_cleared_cex`. -/
theorem waiters_discipline :
    (∀ f r src w, (getD w src).status ≠ .pending →
       (getD ((thenCall f r src w).2) src).callbacks = (getD w src).callbacks) ∧
    (∀ f r src w, src < w.heap.length → (getD w src).status = .pending →
       (getD ((thenCall f r src w).2) src).callbacks
         = (getD w src).callbacks
           ++ [⟨w.nextCb, f.getD (.defaultH src), r.getD (.defaultH src),
                w.heap.length⟩]) ∧
    (∀ p v w, (getD w p).status ≠ .pending → resolveM p v w = w ∧ rejectM p v w = w) ∧
    (∀ p v w, (getD w p).status = .pending →
       (resolveM p v w).tasks = w.tasks ++ [.drainF p v] ∧
       (rejectM p v w).tasks = w.tasks ++ [.drainR p v]) ∧
    (∀ b cbs v w, (drainList semHD b cbs v w).2 = none →
       (drainList semHD b cbs v w).1.events
         = w.events ++ cbs.flatMap
             (fun c => [.winv c.cbId, .inv (if b then c.onF else c.onR) v])) ∧
    (∀ cmds : List Cmd,
       (winvIds (runProg semHD cmds World.empty).events).Nodup) := by
  refine ⟨?_, ?_, settle_terminal_eq, ?_, ?_, ?_⟩
  · intro f r src w hterm
    have hs' : (getD (allocD w) src).status = (getD w src).status := status_getD_allocD w src
    unfold thenCall
    dsimp only
    rcases hs : (getD (allocD w) src).status with _ | _ | _
    · rw [hs] at hs'
      exact absurd hs'.symm hterm
    · rw [getD_pushTask]
      exact callbacks_getD_allocD w src
    · rw [getD_pushTask]
      exact callbacks_getD_allocD w src
  · intro f r src w hsrc hpend
    have hs' : (getD (allocD w) src).status = (getD w src).status := status_getD_allocD w src
    unfold thenCall
    dsimp only
    rcases hs : (getD (allocD w) src).status with _ | _ | _
    · rw [pushCb_callbacks_self src _ (bumpCb (allocD w)) (by simpa using Nat.lt_succ_of_lt hsrc)]
      rw [show (getD (bumpCb (allocD w)) src).callbacks = (getD w src).callbacks from
        callbacks_getD_allocD w src]
    · rw [hs, hpend] at hs'
      exact absurd hs' (by simp)
    · rw [hs, hpend] at hs'
      exact absurd hs' (by simp)
  · intro p v w hpend
    constructor <;> simp [resolveM, rejectM, hpend]
  · exact fun b cbs v w h => drainList_events_of_ok b cbs v w h
  · intro cmds
    exact (inv_runProg cmds World.empty inv_empty).evNd

/-- A world with two pending deferreds used to witness the waiter
discipline at concrete inputs. -/
def wPend2 : World := (newDeferred (newDeferred World.empty).2).2

theorem waiters_discipline_witness :
    (getD ((thenCall none (some (.user .pushLog)) 0 wTerm).2) 0).callbacks
      = (getD wTerm 0).callbacks ∧
    (getD ((thenCall (some (.user .pushLog)) none 0 wPend2).2) 0).callbacks
      = [⟨0, .user .pushLog, .defaultH 0, 2⟩] ∧
    (resolveM 0 (.num 9) wPend2).tasks = [.drainF 0 (.num 9)] ∧
    (drainList semHD true [⟨5, .user .pushLog, .defaultH 0, 1⟩] (.num 1) wPend2).1.events
      = [.winv 5, .inv (.user .pushLog) (.num 1)] := by
  refine ⟨?_, ?_, ?_, ?_⟩
  · exact waiters_discipline.1 none (some (.user .pushLog)) 0 wTerm (by decide)
  · exact waiters_discipline.2.1 (some (.user .pushLog)) none 0 wPend2
      (by decide) rfl
  · exact (waiters_discipline.2.2.2.1 0 (.num 9) wPend2 rfl).1
  · exact waiters_discipline.2.2.2.2.1 true [⟨5, .user .pushLog, .defaultH 0, 1⟩]
      (.num 1) wPend2 rfl

end HDP
